import Mathlib

attribute [local semireducible] Rat.add Rat.sub Rat.mul Rat.inv

/-!
Verification of the midi-cleaner tick-domain note pipeline.

The definitions below are a shallow embedding of the Python sources:
`utils/midi_helpers.py`, `processors/tempo_deduplicator.py`,
`processors/pitch_cluster.py`, `processors/voice_merger.py`,
`processors/cc_filter.py`, `processors/triplet_remover.py`,
`backend/processors/quantizer.py`, `processors/noise_filter.py`,
`processors/same_pitch_overlap_resolver.py`,
`backend/processors/merge_tracks_to_single.py`,
`processors/pipeline.py` (`_get_track_config`) and
`optimizers/auto_tuner.py` (`score_midi`, `_count_overlaps`).

Conventions used throughout:
* Python integers are `ℤ`; Python float arithmetic on tick quantities is
  modelled exactly with `ℚ` (the quantities involved are small dyadic /
  rational values, e.g. `ticks_per_beat / divisor`).
* Python's built-in `round` (banker's rounding, round half to even) is
  `pyRound`; `int(...)` truncation toward zero is `truncQ`.
* Python's stable `list.sort` / `sorted` is `List.insertionSort` with the
  translation of the Python key into a total preorder (`insertionSort` is
  stable, and a stable sort of a given list by a given total preorder is
  unique, so this computes exactly Python's result).
* Python `dict`s (insertion ordered, unique keys) are association lists
  kept in insertion order.
-/

/-- A note tuple, the dict produced by `extract_note_pairs`
(fields in the order the dict literal creates them). -/
structure NoteT where
  pitch : ℤ
  channel : ℤ
  velocity : ℤ
  onset : ℤ
  offset : ℤ
deriving DecidableEq, Repr

/-- A mido message, reduced to the constructors the pipeline inspects.
`otherChannel` stands for any further channel message (pitchwheel, ...);
`otherMeta` for any further meta message (track_name, key_signature, ...). -/
inductive Msg where
  | noteOn (channel pitch velocity : ℤ)
  | noteOff (channel pitch velocity : ℤ)
  | controlChange (channel control value : ℤ)
  | programChange (channel program : ℤ)
  | otherChannel (channel kind : ℤ)
  | setTempo (tempo : ℤ)
  | timeSignature (numerator denominator : ℤ)
  | endOfTrack
  | otherMeta (kind : ℤ)
deriving DecidableEq, Repr

/-- `msg.is_meta` in mido. -/
def Msg.isMeta : Msg → Bool
  | .setTempo _ => true
  | .timeSignature _ _ => true
  | .endOfTrack => true
  | .otherMeta _ => true
  | _ => false

/-- `msg.type in ('note_on', 'note_off')`. -/
def Msg.isNote : Msg → Bool
  | .noteOn _ _ _ => true
  | .noteOff _ _ _ => true
  | _ => false

/-- A delta-time track: list of (delta ticks, message). -/
abbrev Track := List (ℕ × Msg)

/-- Running-sum worker for `to_absolute_time`. -/
def toAbsAux : ℤ → Track → List (ℤ × Msg)
  | _, [] => []
  | t, (d, m) :: rest => (t + d, m) :: toAbsAux (t + d) rest

/-- `to_absolute_time` from `utils/midi_helpers.py`. -/
def toAbsoluteTime (track : Track) : List (ℤ × Msg) :=
  toAbsAux 0 track

/-- Worker for `to_delta_time`; `max(0, int(round(abs - prev)))` on integer
ticks is `Int.toNat` of the difference. -/
def toDeltaAux : ℤ → List (ℤ × Msg) → Track
  | _, [] => []
  | prev, (t, m) :: rest => ((t - prev).toNat, m) :: toDeltaAux t rest

/-- `to_delta_time` from `utils/midi_helpers.py`. -/
def toDeltaTime (l : List (ℤ × Msg)) : Track :=
  toDeltaAux 0 l

/-- The `active` dict of `extract_note_pairs`:
(channel, pitch) → FIFO list of (onset_time, velocity), insertion ordered. -/
abbrev ActiveMap := List ((ℤ × ℤ) × List (ℤ × ℤ))

/-- `active.setdefault(key, []).append(v)` (appends; creates key at the end). -/
def pushActive (m : ActiveMap) (k : ℤ × ℤ) (v : ℤ × ℤ) : ActiveMap :=
  if m.any (fun e => e.1 = k) then
    m.map (fun e => if e.1 = k then (e.1, e.2 ++ [v]) else e)
  else
    m ++ [(k, [v])]

/-- `active[key]` (empty when the key is absent). -/
def lookupActive (m : ActiveMap) (k : ℤ × ℤ) : List (ℤ × ℤ) :=
  match m.find? (fun e => e.1 = k) with
  | some e => e.2
  | none => []

/-- `active[key].pop(0)` — drops the head of the FIFO list, keeping the key. -/
def popActive (m : ActiveMap) (k : ℤ × ℤ) : ActiveMap :=
  m.map (fun e => if e.1 = k then (e.1, e.2.tail) else e)

/-- Handling of a note_off (or velocity-0 note_on): close the oldest open
note_on of the same (channel, pitch), if any. -/
def offStep (act : ActiveMap) (acc : List NoteT) (ch p t : ℤ) :
    ActiveMap × List NoteT :=
  match lookupActive act (ch, p) with
  | [] => (act, acc)
  | (onT, vel) :: _ => (popActive act (ch, p), acc ++ [⟨p, ch, vel, onT, t⟩])

/-- Main event walk of `extract_note_pairs`. -/
def extractLoop : ActiveMap → List NoteT → List (ℤ × Msg) → List NoteT × ActiveMap
  | act, acc, [] => (acc, act)
  | act, acc, (t, m) :: rest =>
    match m with
    | .noteOn ch p v =>
      if 0 < v then
        extractLoop (pushActive act (ch, p) (t, v)) acc rest
      else
        let s := offStep act acc ch p t
        extractLoop s.1 s.2 rest
    | .noteOff ch p _ =>
      let s := offStep act acc ch p t
      extractLoop s.1 s.2 rest
    | _ => extractLoop act acc rest

/-- Orphaned note_ons are closed at the last event time, walking the
`active` dict in key insertion order, each FIFO list front to back. -/
def orphanNotes (act : ActiveMap) (lastT : ℤ) : List NoteT :=
  act.flatMap (fun e => e.2.map (fun pv => ⟨e.1.2, e.1.1, pv.2, pv.1, lastT⟩))

/-- Python key `(n['onset'], n['pitch'])` as a lexicographic `≤`. -/
def noteLeOP (a b : NoteT) : Prop :=
  a.onset < b.onset ∨ (a.onset = b.onset ∧ a.pitch ≤ b.pitch)

instance : DecidableRel noteLeOP := fun a b => by
  unfold noteLeOP; infer_instance

instance : IsTotal NoteT noteLeOP :=
  ⟨by intro a b; unfold noteLeOP; omega⟩

instance : IsTrans NoteT noteLeOP :=
  ⟨by intro a b c; unfold noteLeOP; omega⟩

/-- `pairs.sort(key=lambda n: (n['onset'], n['pitch']))`.  Python's sort is
stable, and a stable sort for a total preorder is unique, so the stable
structural `insertionSort` computes exactly Python's result. -/
def sortNotesOnsetPitch (l : List NoteT) : List NoteT :=
  l.insertionSort noteLeOP

/-- `extract_note_pairs` from `utils/midi_helpers.py`. -/
def extractNotePairs (track : Track) : List NoteT :=
  let absMsgs := toAbsoluteTime track
  let s := extractLoop [] [] absMsgs
  let withOrphans :=
    match absMsgs.getLast? with
    | none => s.1
    | some last => s.1 ++ orphanNotes s.2 last.1
  sortNotesOnsetPitch withOrphans

/-- `extract_non_note_messages` from `utils/midi_helpers.py`. -/
def extractNonNoteMessages (track : Track) : List (ℤ × Msg) :=
  (toAbsoluteTime track).filter (fun e => !(e.2.isNote))

/-- Same-tick priority of `rebuild_track_from_pairs` / `_sort_key`:
meta → 0, note_off or velocity-0 note_on → 1, other → 2, note_on → 3. -/
def ordClass (m : Msg) : ℕ :=
  if m.isMeta then 0
  else
    match m with
    | .noteOff _ _ _ => 1
    | .noteOn _ _ v => if v = 0 then 1 else 3
    | _ => 2

/-- The sort key `(t, order)` of `rebuild_track_from_pairs` as a
lexicographic `≤`. -/
def eventLe (a b : ℤ × Msg) : Prop :=
  a.1 < b.1 ∨ (a.1 = b.1 ∧ ordClass a.2 ≤ ordClass b.2)

instance : DecidableRel eventLe := fun a b => by
  unfold eventLe; infer_instance

instance : IsTotal (ℤ × Msg) eventLe :=
  ⟨by intro a b; unfold eventLe; omega⟩

instance : IsTrans (ℤ × Msg) eventLe :=
  ⟨by intro a b c; unfold eventLe; omega⟩

/-- The absolute-time event list built and sorted inside
`rebuild_track_from_pairs`: a note_on / note_off pair per note (forced to
`channel` when given), the non-note events, stably sorted by `(t, order)`. -/
def rebuildEvents (notePairs : List NoteT) (nonNoteAbs : List (ℤ × Msg))
    (channel : Option ℤ) : List (ℤ × Msg) :=
  let events := notePairs.flatMap (fun n =>
    let ch := channel.getD n.channel
    [(n.onset, Msg.noteOn ch n.pitch n.velocity),
     (n.offset, Msg.noteOff ch n.pitch 0)]) ++ nonNoteAbs
  events.insertionSort eventLe

/-- `rebuild_track_from_pairs` from `utils/midi_helpers.py`. -/
def rebuildTrackFromPairs (notePairs : List NoteT) (nonNoteAbs : List (ℤ × Msg))
    (channel : Option ℤ) : Track :=
  toDeltaTime (rebuildEvents notePairs nonNoteAbs channel)

/-- Python 3 `round` on an exact rational value: round half to even. -/
def pyRound (q : ℚ) : ℤ :=
  if q - ⌊q⌋ < 1/2 then ⌊q⌋
  else if 1/2 < q - ⌊q⌋ then ⌊q⌋ + 1
  else if ⌊q⌋ % 2 = 0 then ⌊q⌋ else ⌊q⌋ + 1

/-- Python `int(...)` on an exact rational value: truncate toward zero. -/
def truncQ (q : ℚ) : ℤ :=
  if 0 ≤ q then ⌊q⌋ else ⌈q⌉

/-- `GRID_DIVISORS` from `config.py`, with the `.get(name, 2)` default. -/
def gridDivisors (name : String) : ℚ :=
  if name = "whole" then 1/4
  else if name = "half" then 1/2
  else if name = "quarter" then 1
  else if name = "eighth" then 2
  else if name = "sixteenth" then 4
  else if name = "thirtysecond" then 8
  else 2

/-- `calculate_bar_ticks` from `utils/midi_helpers.py`:
`int(ticks_per_beat * numerator * 4 / denominator)` (float division, then
truncation). -/
def calculateBarTicks (ticksPerBeat : ℤ) (timeSig : ℤ × ℤ) : ℤ :=
  truncQ ((ticksPerBeat * timeSig.1 * 4 : ℚ) / timeSig.2)

/-- `TempoDeduplicator.process`'s event walk: drop a `set_tempo` iff its
value equals the most recently kept tempo value (`None` initially). -/
def tempoDedupAbs : Option ℤ → List (ℤ × Msg) → List (ℤ × Msg)
  | _, [] => []
  | last, (t, m) :: rest =>
    match m with
    | .setTempo v =>
      if last = some v then tempoDedupAbs last rest
      else (t, m) :: tempoDedupAbs (some v) rest
    | _ => (t, m) :: tempoDedupAbs last rest

/-- `TempoDeduplicator.process` from `processors/tempo_deduplicator.py`. -/
def TempoDeduplicator.process (enabled : Bool) (track : Track) : Track :=
  if enabled = false then track
  else toDeltaTime (tempoDedupAbs none (toAbsoluteTime track))

/-- `CCFilter._should_remove`. -/
def ccShouldRemove (ccNumbers : List ℤ) (m : Msg) : Bool :=
  match m with
  | .controlChange _ control _ => ccNumbers.contains control
  | _ => false

/-- `CCFilter.process` from `processors/cc_filter.py`.  The guard is
`if not self.enabled or not self.cc_numbers: return track`. -/
def CCFilter.process (enabled : Bool) (ccNumbers : List ℤ) (track : Track) : Track :=
  if enabled = false ∨ ccNumbers = [] then track
  else toDeltaTime (((toAbsoluteTime track).filter (fun e => !(ccShouldRemove ccNumbers e.2))))

/-- `NoiseFilter._keep_note`. -/
def noiseKeep (minDuration minVelocity : ℤ) (n : NoteT) : Bool :=
  if n.offset - n.onset < minDuration then false
  else if n.velocity < minVelocity then false
  else true

/-- `NoiseFilter.process` from `processors/noise_filter.py`. -/
def NoiseFilter.process (enabled : Bool) (minDuration minVelocity : ℤ)
    (track : Track) : Track :=
  if enabled = false then track
  else
    let notePairs := extractNotePairs track
    let nonNotes := extractNonNoteMessages track
    if notePairs = [] then track
    else rebuildTrackFromPairs (notePairs.filter (noiseKeep minDuration minVelocity)) nonNotes none

/-- `TripletRemover._get_triplet_durations` (reference lengths only). -/
def tripletDurations (tpb : ℤ) : List ℚ :=
  [(tpb : ℚ) * 4 / 3, (tpb : ℚ) * 2 / 3, (tpb : ℚ) / 3, (tpb : ℚ) / 6]

/-- `TripletRemover._is_triplet`: relative error to some positive reference
is within tolerance. -/
def isTriplet (tolerance : ℚ) (tpb : ℤ) (duration : ℤ) : Bool :=
  (tripletDurations tpb).any (fun ref =>
    decide (0 < ref) && decide (|(duration : ℚ) - ref| / ref ≤ tolerance))

/-- `TripletRemover.process` from `processors/triplet_remover.py`:
matching notes get `offset = onset + int(round(ticks_per_beat / 2))`. -/
def TripletRemover.process (enabled : Bool) (tolerance : ℚ) (tpb : ℤ)
    (track : Track) : Track :=
  if enabled = false then track
  else
    let notePairs := extractNotePairs track
    let nonNotes := extractNonNoteMessages track
    if notePairs = [] then track
    else
      let converted := notePairs.map (fun n =>
        if isTriplet tolerance tpb (n.offset - n.onset) then
          { n with offset := n.onset + pyRound ((tpb : ℚ) / 2) }
        else n)
      rebuildTrackFromPairs converted nonNotes none

/-- `Quantizer._snap_to_grid`: `int(round(tick / int(round(grid_ticks)))) *
int(round(grid_ticks))` behind a `grid_ticks <= 0` guard.  (When
`int(round(grid_ticks)) == 0` with `grid_ticks > 0` the Python code raises
`ZeroDivisionError`; the claims assume a positive integer grid.) -/
def snapToGrid (tick : ℤ) (gridTicks : ℚ) : ℤ :=
  if gridTicks ≤ 0 then tick
  else
    let gridInt := pyRound gridTicks
    pyRound ((tick : ℚ) / gridInt) * gridInt

/-- `Quantizer._quantize_duration`: `max(1, round(duration / grid_ticks)) *
int(round(grid_ticks))` behind the same guard. -/
def quantizeDuration (duration : ℤ) (gridTicks : ℚ) : ℤ :=
  if gridTicks ≤ 0 then duration
  else
    let gridInt := pyRound gridTicks
    max 1 (pyRound ((duration : ℚ) / gridTicks)) * gridInt

/-- The per-note body of `Quantizer.process`: snap the onset, quantize the
duration, clip the offset to the bar boundary of the quantized onset, and
drop the note when the clipped duration falls below one grid unit. -/
def quantizeNote (gridTicks : ℚ) (barTicks : ℤ) (n : NoteT) : Option NoteT :=
  let quantizedOnset := snapToGrid n.onset gridTicks
  let quantizedDuration := quantizeDuration (n.offset - n.onset) gridTicks
  let quantizedOffset := quantizedOnset + quantizedDuration
  let barStart := (Int.fdiv quantizedOnset barTicks) * barTicks
  let barEnd := barStart + barTicks
  let clippedOffset := if barEnd < quantizedOffset then barEnd else quantizedOffset
  let clippedDuration := clippedOffset - quantizedOnset
  let minDur := max 1 (pyRound gridTicks)
  if clippedDuration < minDur then none
  else some { n with onset := quantizedOnset, offset := clippedOffset }

/-- The note loop of `Quantizer.process` over the extracted note pairs. -/
def quantizeNotePairs (gridTicks : ℚ) (barTicks : ℤ) (notes : List NoteT) :
    List NoteT :=
  notes.filterMap (quantizeNote gridTicks barTicks)

/-- `Quantizer.process` from `backend/processors/quantizer.py`. -/
def Quantizer.process (enabled : Bool) (gridName : String) (tpb : ℤ)
    (timeSig : ℤ × ℤ) (track : Track) : Track :=
  if enabled = false then track
  else
    let notePairs := extractNotePairs track
    let nonNotes := extractNonNoteMessages track
    if notePairs = [] then track
    else
      let gridTicks := (tpb : ℚ) / gridDivisors gridName
      let barTicks := calculateBarTicks tpb timeSig
      rebuildTrackFromPairs (quantizeNotePairs gridTicks barTicks notePairs) nonNotes none


/-- The dummy note used as an out-of-range `getD` default (never selected:
all indices passed to it are in range). -/
def dummyNote : NoteT := ⟨0, 0, 0, 0, 0⟩

/-- Generic insertion-ordered grouping, the behaviour of a Python
`defaultdict(list)` filled in a loop and then iterated. -/
def addToGroups {κ : Type} [DecidableEq κ] (gs : List (κ × List NoteT)) (k : κ)
    (n : NoteT) : List (κ × List NoteT) :=
  if gs.any (fun e => e.1 = k) then
    gs.map (fun e => if e.1 = k then (e.1, e.2 ++ [n]) else e)
  else
    gs ++ [(k, [n])]

/-- Group a note list by a key, keys in first-appearance order. -/
def groupBy {κ : Type} [DecidableEq κ] (key : NoteT → κ) (l : List NoteT) :
    List (κ × List NoteT) :=
  l.foldl (fun gs n => addToGroups gs (key n) n) []

/-- `bisect.bisect_left` applied to a sorted list equals the number of
elements strictly below the probe. -/
def bisectLeft (l : List ℤ) (x : ℤ) : ℕ :=
  l.countP (fun v => decide (v < x))

/-- `bisect.bisect_right` applied to a sorted list equals the number of
elements at or below the probe. -/
def bisectRight (l : List ℤ) (x : ℤ) : ℕ :=
  l.countP (fun v => decide (v ≤ x))

/-- The comparison key of `PitchClusterProcessor._select_winner`:
`(-velocity, -duration, pitch_dist)`. -/
def winnerKey (medianPitch : ℤ) (n : NoteT) : ℤ × ℤ × ℤ :=
  (-n.velocity, -(n.offset - n.onset), |n.pitch - medianPitch|)

/-- Python tuple `<` on the winner key (lexicographic, strict). -/
def keyLtW (a b : ℤ × ℤ × ℤ) : Prop :=
  a.1 < b.1 ∨ (a.1 = b.1 ∧ (a.2.1 < b.2.1 ∨ (a.2.1 = b.2.1 ∧ a.2.2 < b.2.2)))

instance : DecidableRel keyLtW := fun a b => by
  unfold keyLtW; infer_instance

/-- `PitchClusterProcessor._select_winner`: `min(cluster, key=_key)` — the
first element attaining the minimal key (Python `min` keeps the earliest on
ties).  The median is `sorted(pitches)[len(pitches) // 2]`, i.e. the
upper-middle element for even-sized clusters. -/
def selectWinner (cluster : List NoteT) : NoteT :=
  let pitches := (cluster.map (fun n => n.pitch)).insertionSort (· ≤ ·)
  let medianPitch := pitches.getD (pitches.length / 2) 0
  match cluster with
  | [] => dummyNote
  | h :: t =>
    t.foldl (fun best n =>
      if keyLtW (winnerKey medianPitch n) (winnerKey medianPitch best) then n else best) h

/-- One iteration of the visited-scan loop of
`PitchClusterProcessor._cluster_channel` (state: visited flags, output). -/
def clusterStep (timeWindow pitchThreshold : ℤ) (sortedNotes : List NoteT)
    (onsets : List ℤ) (st : List Bool × List NoteT) (i : ℕ) :
    List Bool × List NoteT :=
  if st.1.getD i false then st
  else
    let seed := sortedNotes.getD i dummyNote
    let lo := bisectLeft onsets (seed.onset - timeWindow)
    let hi := bisectRight onsets (seed.onset + timeWindow)
    let clusterIdx := (List.range' lo (hi - lo)).filter (fun j =>
      !(st.1.getD j false) &&
        decide (|(sortedNotes.getD j dummyNote).pitch - seed.pitch| ≤ pitchThreshold))
    let visited := clusterIdx.foldl (fun v j => v.set j true) st.1
    if clusterIdx.length = 1 then (visited, st.2 ++ [seed])
    else (visited, st.2 ++ [selectWinner (clusterIdx.map (fun j => sortedNotes.getD j dummyNote))])

/-- `PitchClusterProcessor._cluster_channel`. -/
def clusterChannel (timeWindow pitchThreshold : ℤ) (notes : List NoteT) :
    List NoteT :=
  let sortedNotes := sortNotesOnsetPitch notes
  let onsets := sortedNotes.map (fun n => n.onset)
  ((List.range sortedNotes.length).foldl
    (clusterStep timeWindow pitchThreshold sortedNotes onsets)
    (List.replicate sortedNotes.length false, [])).2

/-- `PitchClusterProcessor.process` from `processors/pitch_cluster.py`. -/
def PitchClusterProcessor.process (enabled : Bool) (timeWindow pitchThreshold : ℤ)
    (track : Track) : Track :=
  if enabled = false then track
  else
    let notePairs := extractNotePairs track
    let nonNotes := extractNonNoteMessages track
    if notePairs = [] then track
    else
      let groups := groupBy (fun n => n.channel) notePairs
      let result := groups.flatMap (fun g => clusterChannel timeWindow pitchThreshold g.2)
      rebuildTrackFromPairs (sortNotesOnsetPitch result) nonNotes none

/-- Python key `(n['onset'], n['offset'])` of `_resolve_group` as a `≤`. -/
def noteLeOO (a b : NoteT) : Prop :=
  a.onset < b.onset ∨ (a.onset = b.onset ∧ a.offset ≤ b.offset)

instance : DecidableRel noteLeOO := fun a b => by
  unfold noteLeOO; infer_instance

instance : IsTotal NoteT noteLeOO :=
  ⟨by intro a b; unfold noteLeOO; omega⟩

instance : IsTrans NoteT noteLeOO :=
  ⟨by intro a b c; unfold noteLeOO; omega⟩

/-- `SamePitchOverlapResolver._pick_winner`:
longer duration, then higher velocity, then earlier onset. -/
def pickWinner (a b : NoteT) : NoteT :=
  if a.offset - a.onset ≠ b.offset - b.onset then
    (if b.offset - b.onset < a.offset - a.onset then a else b)
  else if a.velocity ≠ b.velocity then
    (if b.velocity < a.velocity then a else b)
  else if a.onset ≤ b.onset then a else b

/-- The greedy sweep of `SamePitchOverlapResolver._resolve_group`; the
accumulator is the kept list reversed (head = most recently kept), since the
Python code reads and replaces `kept[-1]`. -/
def resolveSweep : List NoteT → List NoteT → List NoteT
  | acc, [] => acc.reverse
  | acc, n :: rest =>
    match acc with
    | [] => resolveSweep [n] rest
    | last :: accTail =>
      if n.onset < last.offset then resolveSweep (pickWinner last n :: accTail) rest
      else resolveSweep (n :: last :: accTail) rest

/-- `SamePitchOverlapResolver._resolve_group` (sorts by (onset, offset),
then sweeps). -/
def resolveGroup (notes : List NoteT) : List NoteT :=
  resolveSweep [] (notes.insertionSort noteLeOO)

/-- The note-list result of `SamePitchOverlapResolver.process`: resolve
each (channel, pitch) group, concatenate in group insertion order, sort by
(onset, pitch). -/
def samePitchResolvedNotes (notePairs : List NoteT) : List NoteT :=
  sortNotesOnsetPitch
    ((groupBy (fun n => (n.channel, n.pitch)) notePairs).flatMap
      (fun g => resolveGroup g.2))

/-- `SamePitchOverlapResolver.process` from
`processors/same_pitch_overlap_resolver.py`. -/
def SamePitchOverlapResolver.process (enabled : Bool) (track : Track) : Track :=
  if enabled = false then track
  else
    let notePairs := extractNotePairs track
    let nonNotes := extractNonNoteMessages track
    if notePairs = [] then track
    else
      rebuildTrackFromPairs (samePitchResolvedNotes notePairs) nonNotes none

/-- One `Counter` bump: increment an existing channel entry in place or
append a fresh one (Python dicts are insertion ordered). -/
def bumpCount (cs : List (ℤ × ℕ)) (ch : ℤ) : List (ℤ × ℕ) :=
  if cs.any (fun e => e.1 = ch) then
    cs.map (fun e => if e.1 = ch then (e.1, e.2 + 1) else e)
  else
    cs ++ [(ch, 1)]

/-- One loop iteration of `VoiceMerger._find_primary_channel`:
`channels[msg.channel] += 1` for note_on AND note_off messages. -/
def channelCountStep (cs : List (ℤ × ℕ)) (e : ℕ × Msg) : List (ℤ × ℕ) :=
  match e.2 with
  | .noteOn ch _ _ => bumpCount cs ch
  | .noteOff ch _ _ => bumpCount cs ch
  | _ => cs

/-- The `Counter()` of `VoiceMerger._find_primary_channel`: counts the
channels of note_on AND note_off messages, in first-appearance order. -/
def channelCounts (track : Track) : List (ℤ × ℕ) :=
  track.foldl channelCountStep []

/-- `Counter.most_common(1)[0][0]`: the first-inserted key among those with
the maximal count (`most_common` sorts by count descending, stably). -/
def mostCommon1 : List (ℤ × ℕ) → Option ℤ
  | [] => none
  | e :: rest => some (rest.foldl (fun best x => if best.2 < x.2 then x else best) e).1

/-- `VoiceMerger._find_primary_channel` from `processors/voice_merger.py`. -/
def findPrimaryChannel (track : Track) : ℤ :=
  match mostCommon1 (channelCounts track) with
  | some c => c
  | none => 0

/-- Python key `n['onset']` alone, as a total preorder. -/
def noteLeOnset (a b : NoteT) : Prop :=
  a.onset ≤ b.onset

instance : DecidableRel noteLeOnset := fun a b => by
  unfold noteLeOnset; infer_instance

instance : IsTotal NoteT noteLeOnset :=
  ⟨by intro a b; unfold noteLeOnset; omega⟩

instance : IsTrans NoteT noteLeOnset :=
  ⟨by intro a b c; unfold noteLeOnset; omega⟩

/-- The merging sweep of `VoiceMerger._resolve_overlaps` within one
(channel, pitch) group (`current` accumulates; overlapping notes extend
offset and velocity by `max`; disjoint notes emit `current`). -/
def vmMergeSweep : NoteT → List NoteT → List NoteT → List NoteT
  | current, acc, [] => acc ++ [current]
  | current, acc, nxt :: rest =>
    if nxt.onset < current.offset then
      vmMergeSweep
        { current with offset := max current.offset nxt.offset,
                       velocity := max current.velocity nxt.velocity } acc rest
    else vmMergeSweep nxt (acc ++ [current]) rest

/-- `VoiceMerger._resolve_overlaps`. -/
def resolveOverlapsVM (notePairs : List NoteT) : List NoteT :=
  let groups := groupBy (fun n => (n.channel, n.pitch)) notePairs
  let merged := groups.flatMap (fun g =>
    match g.2.insertionSort noteLeOnset with
    | [] => []
    | h :: t => vmMergeSweep h [] t)
  sortNotesOnsetPitch merged

/-- Ordering of `sorted(by_onset.items())`: grouping keys are unique, so
Python's tuple comparison only ever consults the onset key. -/
def groupLeOnset (a b : ℤ × List NoteT) : Prop :=
  a.1 ≤ b.1

instance : DecidableRel groupLeOnset := fun a b => by
  unfold groupLeOnset; infer_instance

instance : IsTotal (ℤ × List NoteT) groupLeOnset :=
  ⟨by intro a b; unfold groupLeOnset; omega⟩

instance : IsTrans (ℤ × List NoteT) groupLeOnset :=
  ⟨by intro a b c; unfold groupLeOnset; omega⟩

/-- The per-chord body of `VoiceMerger._align_chord_durations` (and of
`ProcessingPipeline._final_chord_alignment`): when a chord holds more than
one distinct duration, shrink every member to the shortest one. -/
def alignGroup (notes : List NoteT) : List NoteT :=
  if 1 < notes.length then
    let durations := notes.map (fun n => n.offset - n.onset)
    if 1 < durations.dedup.length then
      match durations.min? with
      | some shortest => notes.map (fun n => { n with offset := n.onset + shortest })
      | none => notes
    else notes
  else notes

/-- `VoiceMerger._align_chord_durations`. -/
def alignChordDurations (notePairs : List NoteT) : List NoteT :=
  let byOnset := (groupBy (fun n => n.onset) notePairs).insertionSort groupLeOnset
  let result := byOnset.flatMap (fun g => alignGroup g.2)
  sortNotesOnsetPitch result

/-- `hasattr(msg, 'channel')` (true exactly for channel messages). -/
def Msg.hasChannel : Msg → Bool
  | .noteOn _ _ _ => true
  | .noteOff _ _ _ => true
  | .controlChange _ _ _ => true
  | .programChange _ _ => true
  | .otherChannel _ _ => true
  | _ => false

/-- `msg.copy(channel=c)`. -/
def Msg.setChannel (c : ℤ) : Msg → Msg
  | .noteOn _ p v => .noteOn c p v
  | .noteOff _ p v => .noteOff c p v
  | .controlChange _ ctl v => .controlChange c ctl v
  | .programChange _ pr => .programChange c pr
  | .otherChannel _ k => .otherChannel c k
  | m => m

/-- The note-pair stage chain of `VoiceMerger.process` (reassign to the
primary channel, optionally merge overlaps, align chord durations). -/
def voiceMergerNotePairs (removeOverlaps : Bool) (primaryChannel : ℤ)
    (notePairs : List NoteT) : List NoteT :=
  let reassigned := notePairs.map (fun n => { n with channel := primaryChannel })
  let pairs2 := if removeOverlaps then resolveOverlapsVM reassigned else reassigned
  alignChordDurations pairs2

/-- `VoiceMerger.process` from `processors/voice_merger.py`. -/
def VoiceMerger.process (enabled removeOverlaps : Bool) (track : Track) : Track :=
  if enabled = false then track
  else
    let primaryChannel := findPrimaryChannel track
    let notePairs := extractNotePairs track
    let nonNotes := extractNonNoteMessages track
    if notePairs = [] then track
    else
      let pairs3 := voiceMergerNotePairs removeOverlaps primaryChannel notePairs
      let fixedNonNotes := nonNotes.map (fun e =>
        if e.2.hasChannel && !(e.2.isMeta) then (e.1, e.2.setChannel primaryChannel) else e)
      rebuildTrackFromPairs pairs3 fixedNonNotes (some primaryChannel)

/-- A mido MidiFile: type, ticks_per_beat and tracks. -/
structure MFile where
  type : ℤ
  ticksPerBeat : ℤ
  tracks : List Track
deriving DecidableEq, Repr

/-- `MergeTracksToSingleTrack._should_include`. -/
def shouldInclude (includeCc : Bool) (ccWhitelist : List ℤ) (m : Msg) : Bool :=
  if m.isMeta then true
  else if m.isNote then true
  else
    match m with
    | .controlChange _ control _ =>
      if includeCc = false then false
      else if ccWhitelist = [] then true
      else ccWhitelist.contains control
    | _ => true

/-- The absolute-time event list collected and sorted by
`MergeTracksToSingleTrack.process`: all tracks' events except
`end_of_track` markers and excluded CCs, stably sorted by the same
`(t, order)` key as `rebuild_track_from_pairs`. -/
def flattenEvents (includeCc : Bool) (ccWhitelist : List ℤ) (file : MFile) :
    List (ℤ × Msg) :=
  let allEvents := file.tracks.flatMap (fun tr =>
    (toAbsoluteTime tr).filter (fun e =>
      !(e.2 = Msg.endOfTrack) && shouldInclude includeCc ccWhitelist e.2))
  allEvents.insertionSort eventLe

/-- `MergeTracksToSingleTrack.process` from
`backend/processors/merge_tracks_to_single.py`. -/
def MergeTracksToSingleTrack.process (enabled includeCc : Bool)
    (ccWhitelist : List ℤ) (midiFile : MFile) : MFile :=
  if enabled = false then midiFile
  else
    let newTrack := toDeltaTime (flattenEvents includeCc ccWhitelist midiFile)
      ++ [(0, Msg.endOfTrack)]
    ⟨0, midiFile.ticksPerBeat, [newTrack]⟩

/-- A configuration value: a scalar (abstracted to an integer code, since
`_get_track_config` never inspects scalars) or a nested dict. -/
inductive CVal where
  | leaf (n : ℤ)
  | dict (entries : List (String × CVal))

/-- A configuration dict: insertion-ordered association list, unique keys. -/
abbrev ConfigDict := List (String × CVal)

/-- Assignment `d[k] = v` on an insertion-ordered dict with unique keys:
replace the entry in place when the key exists, else append at the end. -/
def setKeyC : ConfigDict → String → CVal → ConfigDict
  | [], k, v => [(k, v)]
  | e :: rest, k, v =>
    if e.1 = k then (k, v) :: rest else e :: setKeyC rest k v

/-- Python `base.update(ov)`: one shallow assignment per override entry. -/
def pyDictUpdate (base ov : ConfigDict) : ConfigDict :=
  ov.foldl (fun acc e => setKeyC acc e.1 e.2) base

/-- `d.get(k)` / `d[k]`: first (= unique) entry with the key. -/
def lookupC : ConfigDict → String → Option CVal
  | [], _ => none
  | e :: rest, k => if e.1 = k then some e.2 else lookupC rest k

/-- The `config.get('track_overrides', {})` table (empty when absent; a
non-dict value would make `track_key in overrides` meaningless in Python). -/
def trackOverridesOf (config : ConfigDict) : ConfigDict :=
  match lookupC config ("track_overrides") with
  | some (CVal.dict d) => d
  | _ => []

/-- `ProcessingPipeline._get_track_config` from `processors/pipeline.py`:
copy the global config and shallow-`update` it with the override stored
under the stringified track index, when present.  (A non-dict per-track
override would raise `TypeError` inside `dict.update`; modelled as a
no-op, unreachable for well-formed configs.) -/
def getTrackConfig (config : ConfigDict) (trackIdx : ℕ) : ConfigDict :=
  match lookupC (trackOverridesOf config) (toString trackIdx) with
  | some (CVal.dict o) => pyDictUpdate config o
  | _ => config

/-- `round(x, n)` on an exact rational value (banker's rounding at the
n-th decimal digit). -/
def roundTo (q : ℚ) (ndigits : ℕ) : ℚ :=
  (pyRound (q * ((10 : ℚ) ^ ndigits)) : ℚ) / ((10 : ℚ) ^ ndigits)

/-- The metrics dict returned by `score_midi`. -/
structure ScoreMetrics where
  uniquePitches : ℕ
  avgDuration : ℚ
  shortNoteRatio : ℚ
  overlapCount : ℕ
  voiceCount : ℕ
deriving DecidableEq, Repr

/-- `_count_overlaps` from `optimizers/auto_tuner.py`: group by
(channel, pitch), sort each group by onset, count adjacent pairs where the
later onset precedes the earlier offset. -/
def countOverlaps (pairs : List NoteT) : ℕ :=
  let byKey := groupBy (fun n => (n.channel, n.pitch)) pairs
  (byKey.map (fun g =>
    let sortedNotes := g.2.insertionSort noteLeOnset
    ((sortedNotes.zip sortedNotes.tail).countP
      (fun p => decide (p.2.onset < p.1.offset))))).sum

/-- `score_midi` from `optimizers/auto_tuner.py`. -/
def scoreMidi (file : MFile) : ℚ × ScoreMetrics :=
  let allPairs := file.tracks.flatMap extractNotePairs
  if allPairs = [] then (0, ⟨0, 0, 0, 0, 0⟩)
  else
    let uniquePitches := ((allPairs.map (fun p => p.pitch)).dedup).length
    let durations := allPairs.map (fun p => p.offset - p.onset)
    let avgDuration := ((durations.sum : ℤ) : ℚ) / (durations.length : ℚ)
    let avgDurationNorm := min (avgDuration / 480) 10
    let shortCount := durations.countP (fun d => decide (d < 60))
    let shortNoteRatio := (shortCount : ℚ) / (allPairs.length : ℚ)
    let overlapCount := countOverlaps allPairs
    let voiceCount := ((allPairs.map (fun p => p.channel)).dedup).length
    let score := (uniquePitches : ℚ) * 2 + avgDurationNorm
      - shortNoteRatio * 5 - (overlapCount : ℚ) * 3 - (voiceCount : ℚ) * 4
    (roundTo score 4,
     ⟨uniquePitches, roundTo avgDuration 1, roundTo shortNoteRatio 4,
      overlapCount, voiceCount⟩)

/-- Modelled from the spec's score formula wording (claim C2): the exact
value `unique_pitch_count * 2 + min(avg_duration_ticks / 480, 10) -
short_note_ratio * 5 - same_pitch_overlap_count * 3 -
distinct_channel_count * 4`, with distinct counts as finite-set
cardinalities, the short-note ratio as the fraction of notes with duration
below 60 ticks, and the overlap count as pairwise-adjacent overlaps within
each (channel, pitch) group (the behaviour the claim assigns to
`_count_overlaps`). -/
def specScoreFormula (file : MFile) : ℚ :=
  let pairs := file.tracks.flatMap extractNotePairs
  let uniquePitchCount := ((pairs.map (fun p => p.pitch)).toFinset).card
  let avgDurationTicks :=
    (((pairs.map (fun p => p.offset - p.onset)).sum : ℤ) : ℚ) / (pairs.length : ℚ)
  let shortNoteRatio :=
    ((pairs.countP (fun p => decide (p.offset - p.onset < 60))) : ℚ) / (pairs.length : ℚ)
  let samePitchOverlapCount := countOverlaps pairs
  let distinctChannelCount := ((pairs.map (fun p => p.channel)).toFinset).card
  (uniquePitchCount : ℚ) * 2 + min (avgDurationTicks / 480) 10
    - shortNoteRatio * 5 - (samePitchOverlapCount : ℚ) * 3
    - (distinctChannelCount : ℚ) * 4

/-! ## Helper lemmas -/

theorem pyRound_floor_or_succ (q : ℚ) : pyRound q = ⌊q⌋ ∨ pyRound q = ⌊q⌋ + 1 := by
  unfold pyRound
  split_ifs <;> simp

theorem pyRound_dist (q : ℚ) : |(pyRound q : ℚ) - q| ≤ 1/2 := by
  have h1 : (⌊q⌋ : ℚ) ≤ q := Int.floor_le q
  have h2 : q < ⌊q⌋ + 1 := Int.lt_floor_add_one q
  unfold pyRound
  split_ifs with ha hb hc <;> push_cast <;> rw [abs_le] <;> constructor <;> linarith

theorem pyRound_half_even (q : ℚ) (h : |(pyRound q : ℚ) - q| = 1/2) :
    pyRound q % 2 = 0 := by
  have h1 : (⌊q⌋ : ℚ) ≤ q := Int.floor_le q
  have h2 : q < ⌊q⌋ + 1 := Int.lt_floor_add_one q
  unfold pyRound at h ⊢
  split_ifs at h ⊢ with ha hb hc
  · exfalso
    rw [abs_sub_comm, abs_of_nonneg (by linarith)] at h
    linarith
  · exfalso
    rw [abs_of_nonneg (by push_cast; linarith)] at h
    push_cast at h
    linarith
  · exact hc
  · omega

theorem pyRound_nonpos {q : ℚ} (h : q ≤ 0) : pyRound q ≤ 0 := by
  have h1 : (⌊q⌋ : ℚ) ≤ q := Int.floor_le q
  have hf : ⌊q⌋ ≤ 0 := Int.floor_nonpos h
  unfold pyRound
  split_ifs with ha hb hc
  · exact hf
  · by_contra hgt
    have hf0 : ⌊q⌋ = 0 := by omega
    rw [hf0] at hb
    push_cast at hb
    linarith
  · exact hf
  · by_contra hgt
    have hf0 : ⌊q⌋ = 0 := by omega
    rw [hf0] at ha
    push_cast at ha
    linarith

theorem pos_of_pyRound_pos {q : ℚ} (h : 0 < pyRound q) : 0 < q := by
  by_contra hq
  exact absurd (pyRound_nonpos (le_of_not_lt hq)) (by omega)

/-! ## Claim theorems -/

/-- C9: every pipeline stage (and the file-level flattener) with its
enabled flag false returns its input unchanged — definitionally the very
input term, hence the same events in the same order (in the Python code
each guard is `return track` / `return midi_file`, the same object). -/
theorem disabled_stages_are_identity :
    (∀ track : Track, TempoDeduplicator.process false track = track) ∧
    (∀ (w p : ℤ) (track : Track),
      PitchClusterProcessor.process false w p track = track) ∧
    (∀ (ro : Bool) (track : Track), VoiceMerger.process false ro track = track) ∧
    (∀ (ccs : List ℤ) (track : Track), CCFilter.process false ccs track = track) ∧
    (∀ (tol : ℚ) (tpb : ℤ) (track : Track),
      TripletRemover.process false tol tpb track = track) ∧
    (∀ (g : String) (tpb : ℤ) (ts : ℤ × ℤ) (track : Track),
      Quantizer.process false g tpb ts track = track) ∧
    (∀ (md mv : ℤ) (track : Track), NoiseFilter.process false md mv track = track) ∧
    (∀ track : Track, SamePitchOverlapResolver.process false track = track) ∧
    (∀ (icc : Bool) (wl : List ℤ) (f : MFile),
      MergeTracksToSingleTrack.process false icc wl f = f) := by
  refine ⟨?_, ?_, ?_, ?_, ?_, ?_, ?_, ?_, ?_⟩ <;> intros <;> rfl

/-- C3 (code bug evidence): on the even-sized cluster of two notes with
pitches 60 and 61, equal velocity and equal duration, the code computes the
cluster median as `sorted(pitches)[len(pitches) // 2] = 61` (the
upper-middle element, contradicting both the spec and the code's own
comment "lower-middle element for even-length lists") and therefore keeps
the pitch-61 note; the lower-middle median 60 would keep the pitch-60
note. -/
theorem pitch_cluster_even_median_uses_upper_middle :
    selectWinner [⟨60, 0, 64, 0, 100⟩, ⟨61, 0, 64, 0, 100⟩] = ⟨61, 0, 64, 0, 100⟩ ∧
    clusterChannel 80 1 [⟨60, 0, 64, 0, 100⟩, ⟨61, 0, 64, 0, 100⟩] =
      [⟨61, 0, 64, 0, 100⟩] := by
  constructor
  · decide
  · decide

/-- C5 counterexample: with PPQ 480 and the default eighth grid
(grid size 240), the onset 120 lies exactly halfway between the grid points
0 and 240; the code snaps it to 0 (Python's `round` is banker's rounding,
`round(0.5) == 0`), not to 240 as the claimed round-half-away-from-zero
would require. -/
theorem snap_half_tick_not_away_from_zero :
    snapToGrid 120 ((480 : ℚ) / gridDivisors ("eighth")) = 0 ∧
    ¬ snapToGrid 120 ((480 : ℚ) / gridDivisors ("eighth")) = 240 := by
  constructor
  · decide
  · decide

/-- C5 (amended): with a positive integer grid `g = int(round(grid_ticks))`,
the snapped onset is a multiple of `g` and a nearest multiple (within
`g/2` of the original onset), with an exact half resolved by Python's
banker's rounding to the multiple with even quotient (not away from zero);
the duration becomes a positive multiple of `g`, at least one grid unit,
and — when the grid is integral, `grid_ticks = g` — a nearest positive
integer multiple of `g`. -/
theorem quantizer_snap_nearest_half_even (t d : ℤ) (gridTicks : ℚ)
    (hg : 0 < pyRound gridTicks) :
    (pyRound gridTicks ∣ snapToGrid t gridTicks) ∧
    |(snapToGrid t gridTicks : ℚ) - (t : ℚ)| ≤ (pyRound gridTicks : ℚ) / 2 ∧
    (2 * |(snapToGrid t gridTicks : ℚ) - (t : ℚ)| = (pyRound gridTicks : ℚ) →
      pyRound ((t : ℚ) / (pyRound gridTicks : ℚ)) % 2 = 0) ∧
    (pyRound gridTicks ∣ quantizeDuration d gridTicks) ∧
    (pyRound gridTicks ≤ quantizeDuration d gridTicks) ∧
    (gridTicks = (pyRound gridTicks : ℚ) →
      ∀ k : ℤ, 1 ≤ k →
        |(quantizeDuration d gridTicks : ℚ) - (d : ℚ)| ≤
          |((k * pyRound gridTicks : ℤ) : ℚ) - (d : ℚ)|) := by
  have hgq : (0 : ℚ) < gridTicks := pos_of_pyRound_pos hg
  have hng : ¬ gridTicks ≤ 0 := not_le.mpr hgq
  have hgQ : (0 : ℚ) < (pyRound gridTicks : ℚ) := by exact_mod_cast hg
  have hgne : ((pyRound gridTicks : ℤ) : ℚ) ≠ 0 := ne_of_gt hgQ
  have hsnap : snapToGrid t gridTicks =
      pyRound ((t : ℚ) / (pyRound gridTicks : ℚ)) * pyRound gridTicks := by
    simp [snapToGrid, hng]
  have hqd : quantizeDuration d gridTicks =
      max 1 (pyRound ((d : ℚ) / gridTicks)) * pyRound gridTicks := by
    simp [quantizeDuration, hng]
  have ht : (t : ℚ) = ((t : ℚ) / (pyRound gridTicks : ℚ)) * (pyRound gridTicks : ℚ) := by
    field_simp
  have hdist := pyRound_dist ((t : ℚ) / (pyRound gridTicks : ℚ))
  have hkey : |(snapToGrid t gridTicks : ℚ) - (t : ℚ)| =
      |(pyRound ((t : ℚ) / (pyRound gridTicks : ℚ)) : ℚ) -
        (t : ℚ) / (pyRound gridTicks : ℚ)| * (pyRound gridTicks : ℚ) := by
    rw [hsnap]
    push_cast
    rw [show ((pyRound ((t : ℚ) / (pyRound gridTicks : ℚ)) : ℚ) *
        (pyRound gridTicks : ℚ) - (t : ℚ)) =
        ((pyRound ((t : ℚ) / (pyRound gridTicks : ℚ)) : ℚ) -
          (t : ℚ) / (pyRound gridTicks : ℚ)) * (pyRound gridTicks : ℚ) by
      rw [sub_mul]
      rw [div_mul_cancel₀ _ hgne]]
    rw [abs_mul, abs_of_pos hgQ]
  refine ⟨?_, ?_, ?_, ?_, ?_, ?_⟩
  · rw [hsnap]
    exact dvd_mul_left _ _
  · rw [hkey]
    calc |(pyRound ((t : ℚ) / (pyRound gridTicks : ℚ)) : ℚ) -
          (t : ℚ) / (pyRound gridTicks : ℚ)| * (pyRound gridTicks : ℚ)
        ≤ (1/2) * (pyRound gridTicks : ℚ) := by
          exact mul_le_mul_of_nonneg_right hdist (le_of_lt hgQ)
      _ = (pyRound gridTicks : ℚ) / 2 := by ring
  · intro h2
    rw [hkey] at h2
    have h3 : (2 * |(pyRound ((t : ℚ) / (pyRound gridTicks : ℚ)) : ℚ) -
        (t : ℚ) / (pyRound gridTicks : ℚ)| - 1) * (pyRound gridTicks : ℚ) = 0 := by
      linear_combination h2
    have habs : |(pyRound ((t : ℚ) / (pyRound gridTicks : ℚ)) : ℚ) -
        (t : ℚ) / (pyRound gridTicks : ℚ)| = 1/2 := by
      rcases mul_eq_zero.mp h3 with h4 | h4
      · linarith
      · exact absurd h4 hgne
    exact pyRound_half_even _ habs
  · rw [hqd]
    exact dvd_mul_left _ _
  · rw [hqd]
    have h1 : (1 : ℤ) ≤ max 1 (pyRound ((d : ℚ) / gridTicks)) := le_max_left _ _
    nlinarith [hg]
  · intro hint k hk
    have hxx : ((d : ℚ) / gridTicks) = (d : ℚ) / (pyRound gridTicks : ℚ) := by
      conv_lhs => rw [hint]
    rw [hqd, hxx]
    have hd : (d : ℚ) = ((d : ℚ) / (pyRound gridTicks : ℚ)) * (pyRound gridTicks : ℚ) := by
      field_simp
    set x : ℚ := (d : ℚ) / (pyRound gridTicks : ℚ) with hx
    have hr := pyRound_dist x
    set r : ℤ := pyRound x with hrdef
    set m : ℤ := max 1 r with hm
    have hfact : ∀ j : ℤ, |((j * pyRound gridTicks : ℤ) : ℚ) - (d : ℚ)| =
        |(j : ℚ) - x| * (pyRound gridTicks : ℚ) := by
      intro j
      push_cast
      rw [show ((j : ℚ) * (pyRound gridTicks : ℚ) - (d : ℚ)) =
          ((j : ℚ) - x) * (pyRound gridTicks : ℚ) by
        rw [sub_mul, hx, div_mul_cancel₀ _ hgne]]
      rw [abs_mul, abs_of_pos hgQ]
    rw [hfact m, hfact k]
    refine mul_le_mul_of_nonneg_right ?_ (le_of_lt hgQ)
    rcases le_or_lt 1 r with hr1 | hr1
    · have hmr : m = r := max_eq_right hr1
      rw [hmr]
      rcases eq_or_ne k r with hkr | hkr
      · rw [hkr]
      · have hdistint : (1 : ℚ) ≤ |(k : ℚ) - (r : ℚ)| := by
          exact_mod_cast Int.one_le_abs (sub_ne_zero.mpr hkr)
        have htri : |(k : ℚ) - (r : ℚ)| ≤ |(k : ℚ) - x| + |(r : ℚ) - x| := by
          calc |(k : ℚ) - (r : ℚ)| = |((k : ℚ) - x) - ((r : ℚ) - x)| := by ring_nf
            _ ≤ |(k : ℚ) - x| + |(r : ℚ) - x| := abs_sub _ _
        linarith
    · have hmr : m = 1 := max_eq_left (by omega)
      rw [hmr]
      have hxr : x - (r : ℚ) ≤ 1/2 := by
        have := abs_le.mp hr
        linarith [this.1]
      have hxle : x ≤ 1/2 := by
        have hrle : (r : ℚ) ≤ 0 := by exact_mod_cast (by omega : r ≤ 0)
        linarith
      have hk1 : (1 : ℚ) ≤ (k : ℚ) := by exact_mod_cast hk
      push_cast
      rw [abs_of_pos (by linarith), abs_of_pos (by linarith)]
      linarith

/-- C5 witness: at PPQ 480 on the eighth grid the hypothesis holds
(grid 240 > 0) and e.g. onset 370 snaps to the multiple 480. -/
theorem quantizer_snap_nearest_half_even_witness :
    0 < pyRound ((480 : ℚ) / gridDivisors ("eighth")) ∧
    (pyRound ((480 : ℚ) / gridDivisors ("eighth")) ∣
      snapToGrid 370 ((480 : ℚ) / gridDivisors ("eighth"))) ∧
    snapToGrid 370 ((480 : ℚ) / gridDivisors ("eighth")) = 480 :=
  ⟨by decide, (quantizer_snap_nearest_half_even 370 50 _ (by decide)).1, by decide⟩

/-- The per-track override dict selected by `_get_track_config` (empty when
the stringified index is absent or its value is not a dict). -/
def trackOverrideFor (config : ConfigDict) (trackIdx : ℕ) : ConfigDict :=
  match lookupC (trackOverridesOf config) (toString trackIdx) with
  | some (CVal.dict o) => o
  | _ => []

theorem getTrackConfig_as_update (config : ConfigDict) (trackIdx : ℕ) :
    getTrackConfig config trackIdx = pyDictUpdate config (trackOverrideFor config trackIdx) := by
  unfold getTrackConfig trackOverrideFor
  rcases h : lookupC (trackOverridesOf config) (toString trackIdx) with _ | v
  · rfl
  · cases v <;> rfl

theorem pyDictUpdate_nil (base : ConfigDict) : pyDictUpdate base [] = base := rfl

theorem pyDictUpdate_cons (base : ConfigDict) (e : String × CVal)
    (rest : ConfigDict) :
    pyDictUpdate base (e :: rest) = pyDictUpdate (setKeyC base e.1 e.2) rest := rfl

theorem lookupC_setKeyC_same (cfg : ConfigDict) (k : String) (v : CVal) :
    lookupC (setKeyC cfg k v) k = some v := by
  induction cfg with
  | nil => simp [setKeyC, lookupC]
  | cons e rest ih =>
    by_cases he : e.1 = k
    · simp [setKeyC, lookupC, he]
    · simp [setKeyC, lookupC, he, ih]

theorem lookupC_setKeyC_other (cfg : ConfigDict) (k : String) (v : CVal)
    (k' : String) (h : k' ≠ k) :
    lookupC (setKeyC cfg k v) k' = lookupC cfg k' := by
  have hne : ¬ (k = k') := fun hh => h hh.symm
  induction cfg with
  | nil => simp [setKeyC, lookupC, hne]
  | cons e rest ih =>
    by_cases he : e.1 = k
    · have hne2 : ¬ (e.1 = k') := by rw [he]; exact hne
      simp [setKeyC, lookupC, he, hne, hne2]
    · by_cases he' : e.1 = k'
      · simp [setKeyC, lookupC, he, he', h]
      · simp [setKeyC, lookupC, he, he', h, ih]

theorem lookupC_none_of_key_not_mem (cfg : ConfigDict) (k : String)
    (h : k ∉ cfg.map (fun e => e.1)) : lookupC cfg k = none := by
  induction cfg with
  | nil => rfl
  | cons e rest ih =>
    simp only [List.map_cons, List.mem_cons, not_or] at h
    have : ¬ (e.1 = k) := fun hh => h.1 hh.symm
    simp [lookupC, this, ih h.2]

theorem lookupC_pyDictUpdate_absent (base ov : ConfigDict) (k : String)
    (h : lookupC ov k = none) :
    lookupC (pyDictUpdate base ov) k = lookupC base k := by
  induction ov generalizing base with
  | nil => rfl
  | cons e rest ih =>
    rw [pyDictUpdate_cons]
    have hek : ¬ (e.1 = k) := by
      intro hek
      simp [lookupC, hek] at h
    rw [ih (setKeyC base e.1 e.2) (by simpa [lookupC, hek] using h)]
    exact lookupC_setKeyC_other base e.1 e.2 k (fun hh => hek hh.symm)

theorem lookupC_pyDictUpdate_present (base ov : ConfigDict)
    (hnd : (ov.map (fun e => e.1)).Nodup) (k : String) (v : CVal)
    (h : (k, v) ∈ ov) :
    lookupC (pyDictUpdate base ov) k = some v := by
  induction ov generalizing base with
  | nil => simp at h
  | cons e rest ih =>
    rw [pyDictUpdate_cons]
    simp only [List.map_cons, List.nodup_cons] at hnd
    rcases List.mem_cons.mp h with he | hrest
    · have hkeq : e.1 = k := by rw [← he]
      have habs : lookupC rest k = none := by
        refine lookupC_none_of_key_not_mem rest k ?_
        rw [← hkeq]
        exact hnd.1
      rw [lookupC_pyDictUpdate_absent _ _ _ habs]
      have : e.2 = v := by rw [← he]
      rw [← this, ← hkeq]
      exact lookupC_setKeyC_same base e.1 e.2
    · exact ih _ hnd.2 hrest

/-- A concrete global config with a nested `pitch_cluster` dict and a
per-track override for track 0 whose `pitch_cluster` value is a nested
dict carrying only `pitch_threshold`. -/
def exCfg8 : ConfigDict :=
  [("pitch_cluster", CVal.dict
      [("enabled", CVal.leaf 1), ("time_window_ticks", CVal.leaf 20)]),
   ("track_overrides", CVal.dict
      [("0", CVal.dict
        [("pitch_cluster", CVal.dict [("pitch_threshold", CVal.leaf 2)])])])]

/-- C8 counterexample: the merge is shallow all the way — a nested dict in
the override replaces the global nested dict wholesale, so the default key
`enabled` inside `pitch_cluster` is NOT retained, contradicting the
claim's "the merged nested dict retains every default key". -/
theorem track_config_nested_dict_replaced :
    lookupC (getTrackConfig exCfg8 0) "pitch_cluster" =
      some (CVal.dict [("pitch_threshold", CVal.leaf 2)]) ∧
    lookupC exCfg8 ("pitch_cluster") =
      some (CVal.dict
        [("enabled", CVal.leaf 1), ("time_window_ticks", CVal.leaf 20)]) := by
  constructor
  · rfl
  · rfl

/-- C8 (amended): the per-track configuration is the global configuration
shallow-updated with the override: every top-level key absent from the
override keeps its global value, and every top-level key present in the
override takes the override's value entirely — including nested-dict
values, which replace the global nested dict wholesale rather than being
merged key-by-key. -/
theorem track_config_shallow_merge (config : ConfigDict) (trackIdx : ℕ)
    (hnd : ((trackOverrideFor config trackIdx).map (fun e => e.1)).Nodup) :
    (∀ k : String, lookupC (trackOverrideFor config trackIdx) k = none →
      lookupC (getTrackConfig config trackIdx) k = lookupC config k) ∧
    (∀ (k : String) (v : CVal), (k, v) ∈ trackOverrideFor config trackIdx →
      lookupC (getTrackConfig config trackIdx) k = some v) := by
  rw [getTrackConfig_as_update]
  constructor
  · intro k hk
    exact lookupC_pyDictUpdate_absent config _ k hk
  · intro k v hkv
    exact lookupC_pyDictUpdate_present config _ hnd k v hkv

/-- C8 witness: on the concrete config, the key `track_overrides` (absent
from the override) keeps its global value, and the key `pitch_cluster`
(present in the override) takes the override's nested dict. -/
theorem track_config_shallow_merge_witness :
    lookupC (getTrackConfig exCfg8 0) "track_overrides" =
      lookupC exCfg8 ("track_overrides") ∧
    lookupC (getTrackConfig exCfg8 0) "pitch_cluster" =
      some (CVal.dict [("pitch_threshold", CVal.leaf 2)]) := by
  have hov : trackOverrideFor exCfg8 0 =
      [("pitch_cluster", CVal.dict [("pitch_threshold", CVal.leaf 2)])] := rfl
  refine ⟨(track_config_shallow_merge exCfg8 0 ?_).1 ("track_overrides") ?_,
          (track_config_shallow_merge exCfg8 0 ?_).2 ("pitch_cluster") _ ?_⟩
  · rw [hov]; simp
  · rw [hov]; rfl
  · rw [hov]; simp
  · rw [hov]; simp

/-- `msg.type == 'set_tempo'`. -/
def Msg.isSetTempo : Msg → Bool
  | .setTempo _ => true
  | _ => false

/-- The sequence of `set_tempo` values carried by a message list. -/
def tempoVals (ms : List Msg) : List ℤ :=
  ms.filterMap (fun m => match m with | .setTempo v => some v | _ => none)

/-- The messages of a delta-time track, in order. -/
def msgsOf (tr : Track) : List Msg :=
  tr.map (fun e => e.2)

theorem toDeltaAux_msgs (prev : ℤ) (l : List (ℤ × Msg)) :
    (toDeltaAux prev l).map (fun e => e.2) = l.map (fun e => e.2) := by
  induction l generalizing prev with
  | nil => rfl
  | cons e rest ih => simp [toDeltaAux, ih]

theorem toAbsAux_msgs (t : ℤ) (tr : Track) :
    (toAbsAux t tr).map (fun e => e.2) = tr.map (fun e => e.2) := by
  induction tr generalizing t with
  | nil => rfl
  | cons e rest ih => simp [toAbsAux, ih]

/-- Modelled from the spec's wording for claim C6: the kept `set_tempo`
value sequence, given the most recently kept value `v` — a value is
dropped iff it equals the last kept one. -/
def tempoDedupSpec : ℤ → List ℤ → List ℤ
  | _, [] => []
  | v, w :: rest => if w = v then tempoDedupSpec v rest else w :: tempoDedupSpec w rest

theorem tempoDedupSpec_destutter (v : ℤ) (l : List ℤ) :
    v :: tempoDedupSpec v l = List.destutter' (· ≠ ·) v l := by
  induction l generalizing v with
  | nil => simp [tempoDedupSpec, List.destutter']
  | cons w rest ih =>
    by_cases hwv : w = v
    · subst hwv
      simp [tempoDedupSpec, List.destutter', ih]
    · rw [List.destutter'_cons_pos _ (by simpa using Ne.symm hwv)]
      simp only [tempoDedupSpec, if_neg hwv]
      rw [← ih w]

theorem eq_setTempo_of_isSetTempo {m : Msg} (h : m.isSetTempo = true) :
    ∃ w, m = Msg.setTempo w := by
  cases m <;> simp [Msg.isSetTempo] at h ⊢

theorem tempoDedupAbs_cons_other (last : Option ℤ) (t : ℤ) (m : Msg)
    (rest : List (ℤ × Msg)) (h : m.isSetTempo = false) :
    tempoDedupAbs last ((t, m) :: rest) = (t, m) :: tempoDedupAbs last rest := by
  cases m
  case setTempo => simp [Msg.isSetTempo] at h
  all_goals rfl

theorem tempoVals_cons_other (m : Msg) (ms : List Msg) (h : m.isSetTempo = false) :
    tempoVals (m :: ms) = tempoVals ms := by
  cases m
  case setTempo => simp [Msg.isSetTempo] at h
  all_goals rfl

theorem tempoVals_cons_tempo (w : ℤ) (ms : List Msg) :
    tempoVals (Msg.setTempo w :: ms) = w :: tempoVals ms := rfl

theorem tempoDedupAbs_vals_some (l : List (ℤ × Msg)) (v : ℤ) :
    tempoVals ((tempoDedupAbs (some v) l).map (fun e => e.2)) =
      tempoDedupSpec v (tempoVals (l.map (fun e => e.2))) := by
  induction l generalizing v with
  | nil => rfl
  | cons e rest ih =>
    rcases e with ⟨t, m⟩
    by_cases hm : m.isSetTempo = true
    · obtain ⟨w, rfl⟩ := eq_setTempo_of_isSetTempo hm
      rw [List.map_cons, tempoVals_cons_tempo]
      by_cases hw : w = v
      · subst hw
        rw [show tempoDedupAbs (some w) ((t, Msg.setTempo w) :: rest) =
            tempoDedupAbs (some w) rest from by simp [tempoDedupAbs]]
        rw [ih]
        simp [tempoDedupSpec]
      · have hvw : ¬ (v = w) := fun hh => hw hh.symm
        rw [show tempoDedupAbs (some v) ((t, Msg.setTempo w) :: rest) =
            (t, Msg.setTempo w) :: tempoDedupAbs (some w) rest from by
          simp [tempoDedupAbs, hvw]]
        rw [List.map_cons, tempoVals_cons_tempo, ih]
        simp [tempoDedupSpec, hw]
    · have hm' : m.isSetTempo = false := by simpa using hm
      rw [tempoDedupAbs_cons_other _ _ _ _ hm', List.map_cons, List.map_cons,
        tempoVals_cons_other _ _ hm', tempoVals_cons_other _ _ hm', ih]

theorem tempoDedupAbs_vals_none (l : List (ℤ × Msg)) :
    tempoVals ((tempoDedupAbs none l).map (fun e => e.2)) =
      List.destutter (· ≠ ·) (tempoVals (l.map (fun e => e.2))) := by
  induction l with
  | nil => rfl
  | cons e rest ih =>
    rcases e with ⟨t, m⟩
    by_cases hm : m.isSetTempo = true
    · obtain ⟨w, rfl⟩ := eq_setTempo_of_isSetTempo hm
      rw [List.map_cons, tempoVals_cons_tempo, List.destutter_cons']
      rw [show tempoDedupAbs none ((t, Msg.setTempo w) :: rest) =
          (t, Msg.setTempo w) :: tempoDedupAbs (some w) rest from by
        simp [tempoDedupAbs]]
      rw [List.map_cons, tempoVals_cons_tempo, tempoDedupAbs_vals_some,
        tempoDedupSpec_destutter]
    · have hm' : m.isSetTempo = false := by simpa using hm
      rw [tempoDedupAbs_cons_other _ _ _ _ hm', List.map_cons, List.map_cons,
        tempoVals_cons_other _ _ hm', tempoVals_cons_other _ _ hm', ih]

theorem tempoDedupAbs_keeps_non_tempo (last : Option ℤ) (l : List (ℤ × Msg)) :
    (tempoDedupAbs last l).filter (fun e => !(e.2.isSetTempo)) =
      l.filter (fun e => !(e.2.isSetTempo)) := by
  induction l generalizing last with
  | nil => rfl
  | cons e rest ih =>
    rcases e with ⟨t, m⟩
    by_cases hm : m.isSetTempo = true
    · obtain ⟨w, rfl⟩ := eq_setTempo_of_isSetTempo hm
      by_cases hw : last = some w
      · rw [show tempoDedupAbs last ((t, Msg.setTempo w) :: rest) =
            tempoDedupAbs last rest from by simp [tempoDedupAbs, hw]]
        rw [ih, List.filter_cons]
        simp [Msg.isSetTempo]
      · rw [show tempoDedupAbs last ((t, Msg.setTempo w) :: rest) =
            (t, Msg.setTempo w) :: tempoDedupAbs (some w) rest from by
          simp [tempoDedupAbs, hw]]
        rw [List.filter_cons, List.filter_cons]
        simp only [Msg.isSetTempo, Bool.not_true, cond_false]
        exact ih (some w)
    · have hm' : m.isSetTempo = false := by simpa using hm
      rw [tempoDedupAbs_cons_other _ _ _ _ hm', List.filter_cons, List.filter_cons,
        hm']
      simp only [Bool.not_false, cond_true]
      rw [ih]

/-- C6: when enabled, the tempo deduplicator drops a `set_tempo` exactly
when its value equals the most recently kept one: the output's tempo-value
sequence is the input's with consecutive runs collapsed
(`List.destutter (· ≠ ·)`), all non-tempo events are kept at their
absolute ticks, a 3-fold repeat of a tempo T collapses to one event, and
an alternating sequence T1, T2, T1 (T1 ≠ T2) keeps all three. -/
theorem tempo_dedup_drops_iff_equal_last_kept :
    (∀ track : Track,
      tempoVals (msgsOf (TempoDeduplicator.process true track)) =
        List.destutter (· ≠ ·) (tempoVals (msgsOf track))) ∧
    (∀ track : Track,
      (tempoDedupAbs none (toAbsoluteTime track)).filter (fun e => !(e.2.isSetTempo)) =
        (toAbsoluteTime track).filter (fun e => !(e.2.isSetTempo))) ∧
    (∀ T : ℤ, tempoVals (msgsOf (TempoDeduplicator.process true
        [(0, .setTempo T), (10, .setTempo T), (10, .setTempo T), (0, .endOfTrack)])) =
      [T]) ∧
    (∀ T1 T2 : ℤ, T1 ≠ T2 → tempoVals (msgsOf (TempoDeduplicator.process true
        [(0, .setTempo T1), (10, .setTempo T2), (10, .setTempo T1), (0, .endOfTrack)])) =
      [T1, T2, T1]) := by
  have hmain : ∀ track : Track,
      tempoVals (msgsOf (TempoDeduplicator.process true track)) =
        List.destutter (· ≠ ·) (tempoVals (msgsOf track)) := by
    intro track
    show tempoVals (msgsOf (toDeltaTime (tempoDedupAbs none (toAbsoluteTime track)))) = _
    unfold msgsOf toDeltaTime toAbsoluteTime
    rw [toDeltaAux_msgs, tempoDedupAbs_vals_none, toAbsAux_msgs]
  refine ⟨hmain, fun track => tempoDedupAbs_keeps_non_tempo none _, ?_, ?_⟩
  · intro T
    rw [hmain]
    show List.destutter (· ≠ ·) [T, T, T] = [T]
    simp [List.destutter, List.destutter']
  · intro T1 T2 h
    rw [hmain]
    show List.destutter (· ≠ ·) [T1, T2, T1] = [T1, T2, T1]
    simp [List.destutter, List.destutter', h, Ne.symm h]

/-- C6 witness: the alternating-tempo clause applied at 500000 / 400000,
together with the triple-repeat clause at 500000. -/
theorem tempo_dedup_witness :
    tempoVals (msgsOf (TempoDeduplicator.process true
        [(0, .setTempo 500000), (10, .setTempo 400000), (10, .setTempo 500000),
         (0, .endOfTrack)])) = [500000, 400000, 500000] ∧
    tempoVals (msgsOf (TempoDeduplicator.process true
        [(0, .setTempo 500000), (10, .setTempo 500000), (10, .setTempo 500000),
         (0, .endOfTrack)])) = [500000] :=
  ⟨tempo_dedup_drops_iff_equal_last_kept.2.2.2 500000 400000 (by decide),
   tempo_dedup_drops_iff_equal_last_kept.2.2.1 500000⟩

/-- `note_on` with nonzero velocity (serialized last at its tick). -/
def Msg.isNoteOnPositive : Msg → Bool
  | .noteOn _ _ v => decide (v ≠ 0)
  | _ => false

/-- `note_off`, or `note_on` with velocity 0 (serialized right after the
metas at its tick). -/
def Msg.isNoteOffLike : Msg → Bool
  | .noteOff _ _ _ => true
  | .noteOn _ _ v => decide (v = 0)
  | _ => false

theorem ordClass_of_noteOnPositive {m : Msg} (h : m.isNoteOnPositive = true) :
    ordClass m = 3 := by
  cases m <;> simp [Msg.isNoteOnPositive] at h
  case noteOn ch p v =>
    simp [ordClass, Msg.isMeta, h]

theorem ordClass_of_noteOffLike {m : Msg} (h : m.isNoteOffLike = true) :
    ordClass m = 1 := by
  cases m <;> simp [Msg.isNoteOffLike] at h
  case noteOn ch p v =>
    simp [ordClass, Msg.isMeta, h]
  case noteOff ch p v =>
    simp [ordClass, Msg.isMeta]

/-- C1: both `rebuild_track_from_pairs` and the track flattener emit their
events sorted by `(tick, class)` with the class order
meta < note_off/velocity-0 note_on < other < note_on(vel>0); consequently
no positive note_on ever precedes a same-tick note-off-like event, and the
delta-time track carries exactly these messages in this order. -/
theorem rebuild_and_flatten_same_tick_order :
    (∀ (notePairs : List NoteT) (nonNoteAbs : List (ℤ × Msg)) (ch : Option ℤ),
      List.Pairwise eventLe (rebuildEvents notePairs nonNoteAbs ch) ∧
      List.Pairwise (fun a b => a.1 = b.1 → a.2.isNoteOnPositive = true →
        b.2.isNoteOffLike = false) (rebuildEvents notePairs nonNoteAbs ch) ∧
      msgsOf (rebuildTrackFromPairs notePairs nonNoteAbs ch) =
        (rebuildEvents notePairs nonNoteAbs ch).map (fun e => e.2)) ∧
    (∀ (includeCc : Bool) (ccWhitelist : List ℤ) (file : MFile),
      List.Pairwise eventLe (flattenEvents includeCc ccWhitelist file) ∧
      List.Pairwise (fun a b => a.1 = b.1 → a.2.isNoteOnPositive = true →
        b.2.isNoteOffLike = false) (flattenEvents includeCc ccWhitelist file)) := by
  have himp : ∀ a b : ℤ × Msg, eventLe a b →
      (a.1 = b.1 → a.2.isNoteOnPositive = true → b.2.isNoteOffLike = false) := by
    intro a b hab ht hon
    rcases hab with hlt | ⟨heq, hord⟩
    · omega
    · by_contra hoff
      have hoff' : b.2.isNoteOffLike = true := by
        cases hb : b.2.isNoteOffLike
        · exact absurd hb hoff
        · rfl
      rw [ordClass_of_noteOnPositive hon, ordClass_of_noteOffLike hoff'] at hord
      omega
  refine ⟨fun notePairs nonNoteAbs ch => ⟨?_, ?_, ?_⟩,
          fun includeCc ccWhitelist file => ⟨?_, ?_⟩⟩
  · exact List.sorted_insertionSort eventLe _
  · exact (List.sorted_insertionSort eventLe _).imp (fun h => himp _ _ h)
  · unfold rebuildTrackFromPairs toDeltaTime msgsOf
    rw [toDeltaAux_msgs]
  · exact List.sorted_insertionSort eventLe _
  · exact (List.sorted_insertionSort eventLe _).imp (fun h => himp _ _ h)

theorem quantizeNotePairs_grid_bar (gT : ℚ) (bT : ℤ) (notes : List NoteT)
    (hg : 0 < pyRound gT) :
    ∀ n ∈ quantizeNotePairs gT bT notes,
      (pyRound gT ∣ n.onset) ∧ n.offset ≤ (Int.fdiv n.onset bT + 1) * bT := by
  intro n hn
  rw [quantizeNotePairs, List.mem_filterMap] at hn
  obtain ⟨a, _, hfa⟩ := hn
  have hgq : (0 : ℚ) < gT := pos_of_pyRound_pos hg
  have hng : ¬ gT ≤ 0 := not_le.mpr hgq
  simp only [quantizeNote] at hfa
  have hsnapdvd : pyRound gT ∣ snapToGrid a.onset gT := by
    rw [show snapToGrid a.onset gT =
        pyRound ((a.onset : ℚ) / (pyRound gT : ℚ)) * pyRound gT from by
      simp [snapToGrid, hng]]
    exact dvd_mul_left _ _
  split_ifs at hfa with h1 h2 h3
  all_goals
    first
      | exact Option.noConfusion hfa
      | (have hn' := Option.some.inj hfa
         rw [← hn']
         refine ⟨hsnapdvd, ?_⟩
         rw [add_mul, one_mul]
         exact le_of_not_lt h1)
      | (have hn' := Option.some.inj hfa
         rw [← hn']
         refine ⟨hsnapdvd, ?_⟩
         rw [add_mul, one_mul])

/-- C4: for every track quantized by the enabled quantizer (with a positive
integer grid), every surviving note's onset is an exact multiple of the
grid size `int(round(ticks_per_beat / divisor))`, and its offset does not
exceed the end tick of the bar containing its quantized onset. -/
theorem quantizer_output_on_grid_within_bar (gridName : String) (tpb : ℤ)
    (timeSig : ℤ × ℤ) (track : Track)
    (hg : 0 < pyRound ((tpb : ℚ) / gridDivisors gridName)) :
    ∀ n ∈ quantizeNotePairs ((tpb : ℚ) / gridDivisors gridName)
        (calculateBarTicks tpb timeSig) (extractNotePairs track),
      (pyRound ((tpb : ℚ) / gridDivisors gridName) ∣ n.onset) ∧
      n.offset ≤ (Int.fdiv n.onset (calculateBarTicks tpb timeSig) + 1) *
        calculateBarTicks tpb timeSig :=
  quantizeNotePairs_grid_bar _ _ _ hg

/-- C4 witness: PPQ 480, eighth grid (240 ticks), 4/4 bars (1920 ticks),
on a track with one note of duration 100 starting at tick 0. -/
theorem quantizer_output_on_grid_within_bar_witness :
    0 < pyRound ((480 : ℚ) / gridDivisors ("eighth")) ∧
    ∀ n ∈ quantizeNotePairs ((480 : ℚ) / gridDivisors ("eighth"))
        (calculateBarTicks 480 (4, 4))
        (extractNotePairs [(0, .noteOn 0 60 80), (100, .noteOff 0 60 0),
          (0, .endOfTrack)]),
      (pyRound ((480 : ℚ) / gridDivisors ("eighth")) ∣ n.onset) ∧
      n.offset ≤ (Int.fdiv n.onset (calculateBarTicks 480 (4, 4)) + 1) *
        calculateBarTicks 480 (4, 4) :=
  ⟨by decide,
   quantizer_output_on_grid_within_bar ("eighth") 480 (4, 4)
     [(0, .noteOn 0 60 80), (100, .noteOff 0 60 0), (0, .endOfTrack)] (by decide)⟩

theorem pickWinner_eq_or (a b : NoteT) : pickWinner a b = a ∨ pickWinner a b = b := by
  unfold pickWinner
  split_ifs <;> simp

theorem resolveSweep_mem :
    ∀ (rest acc : List NoteT) (x : NoteT), x ∈ resolveSweep acc rest →
      x ∈ acc ∨ x ∈ rest := by
  intro rest
  induction rest with
  | nil =>
    intro acc x hx
    rw [resolveSweep] at hx
    exact Or.inl (List.mem_reverse.mp hx)
  | cons n rest' ih =>
    intro acc x hx
    match acc with
    | [] =>
      rw [resolveSweep] at hx
      rcases ih [n] x hx with h | h
      · exact Or.inr (List.mem_cons.mpr (Or.inl (List.mem_singleton.mp h)))
      · exact Or.inr (List.mem_cons.mpr (Or.inr h))
    | last :: tail =>
      rw [resolveSweep] at hx
      split_ifs at hx with hov
      · rcases ih _ x hx with h | h
        · rcases List.mem_cons.mp h with h1 | h1
          · rcases pickWinner_eq_or last n with hw | hw
            · exact Or.inl (by rw [hw] at h1; exact List.mem_cons.mpr (Or.inl h1))
            · exact Or.inr (List.mem_cons.mpr (Or.inl (by rw [hw] at h1; exact h1)))
          · exact Or.inl (List.mem_cons.mpr (Or.inr h1))
        · exact Or.inr (List.mem_cons.mpr (Or.inr h))
      · rcases ih _ x hx with h | h
        · rcases List.mem_cons.mp h with h1 | h1
          · exact Or.inr (List.mem_cons.mpr (Or.inl h1))
          · exact Or.inl h1
        · exact Or.inr (List.mem_cons.mpr (Or.inr h))

theorem resolveSweep_pairwise :
    ∀ (rest acc : List NoteT),
      List.Pairwise (fun a b => a.onset ≤ b.onset) rest →
      (∀ a ∈ acc, ∀ b ∈ rest, a.onset ≤ b.onset) →
      List.Pairwise (fun a b => b.offset ≤ a.onset) acc →
      List.Pairwise (fun a b => a.offset ≤ b.onset) (resolveSweep acc rest) := by
  intro rest
  induction rest with
  | nil =>
    intro acc _ _ hacc
    rw [resolveSweep]
    exact List.pairwise_reverse.mpr hacc
  | cons n rest' ih =>
    intro acc hsorted hfront hacc
    have hn_rest : ∀ b ∈ rest', n.onset ≤ b.onset := by
      intro b hb
      exact (List.pairwise_cons.mp hsorted).1 b hb
    have hsorted' : List.Pairwise (fun a b => a.onset ≤ b.onset) rest' :=
      (List.pairwise_cons.mp hsorted).2
    match acc with
    | [] =>
      rw [resolveSweep]
      refine ih [n] hsorted' ?_ (List.pairwise_singleton _ _)
      intro a ha b hb
      rw [List.mem_singleton.mp ha]
      exact hn_rest b hb
    | last :: tail =>
      have hlast_tail : ∀ y ∈ tail, y.offset ≤ last.onset :=
        (List.pairwise_cons.mp hacc).1
      have htail : List.Pairwise (fun a b => b.offset ≤ a.onset) tail :=
        (List.pairwise_cons.mp hacc).2
      have hlast_n : last.onset ≤ n.onset :=
        hfront last (List.mem_cons_self _ _) n (List.mem_cons_self _ _)
      rw [resolveSweep]
      split_ifs with hov
      · -- overlap: replace the most recently kept note with the winner
        have hw := pickWinner_eq_or last n
        have hwon : last.onset ≤ (pickWinner last n).onset := by
          rcases hw with hw | hw <;> rw [hw]
          exact hlast_n
        refine ih _ hsorted' ?_ ?_
        · intro a ha b hb
          rcases List.mem_cons.mp ha with h1 | h1
          · rcases hw with hw | hw
            · rw [h1, hw]
              exact hfront last (List.mem_cons_self _ _) b (List.mem_cons.mpr (Or.inr hb))
            · rw [h1, hw]
              exact hn_rest b hb
          · exact hfront a (List.mem_cons.mpr (Or.inr h1)) b (List.mem_cons.mpr (Or.inr hb))
        · refine List.pairwise_cons.mpr ⟨?_, htail⟩
          intro y hy
          exact le_trans (hlast_tail y hy) hwon
      · -- no overlap: append the current note as the new most recent
        refine ih _ hsorted' ?_ ?_
        · intro a ha b hb
          rcases List.mem_cons.mp ha with h1 | h1
          · rw [h1]
            exact hn_rest b hb
          · exact hfront a h1 b (List.mem_cons.mpr (Or.inr hb))
        · refine List.pairwise_cons.mpr ⟨?_, hacc⟩
          intro y hy
          rcases List.mem_cons.mp hy with h1 | h1
          · rw [h1]
            exact le_of_not_lt hov
          · exact le_trans (hlast_tail y h1) hlast_n

theorem resolveGroup_pairwise (notes : List NoteT) :
    List.Pairwise (fun a b => a.offset ≤ b.onset) (resolveGroup notes) := by
  unfold resolveGroup
  refine resolveSweep_pairwise _ [] ?_ (by simp) List.Pairwise.nil
  exact (List.sorted_insertionSort noteLeOO notes).imp (fun h => by
    rcases h with h | ⟨h1, _⟩
    · exact le_of_lt h
    · exact le_of_eq h1)

theorem resolveGroup_subset (notes : List NoteT) (x : NoteT)
    (hx : x ∈ resolveGroup notes) : x ∈ notes := by
  unfold resolveGroup at hx
  rcases resolveSweep_mem _ [] x hx with h | h
  · simp at h
  · exact (List.perm_insertionSort noteLeOO notes).mem_iff.mp h

theorem addToGroups_preserves {κ : Type} [DecidableEq κ] (key : NoteT → κ)
    (gs : List (κ × List NoteT)) (n : NoteT)
    (hmem : ∀ g ∈ gs, ∀ m ∈ g.2, key m = g.1)
    (hkeys : List.Pairwise (fun g1 g2 => g1.1 ≠ g2.1) gs) :
    (∀ g ∈ addToGroups gs (key n) n, ∀ m ∈ g.2, key m = g.1) ∧
    List.Pairwise (fun g1 g2 => g1.1 ≠ g2.1) (addToGroups gs (key n) n) := by
  unfold addToGroups
  split_ifs with hany
  · constructor
    · intro g hg m hm
      rcases List.mem_map.mp hg with ⟨g0, hg0, hfg⟩
      by_cases hk : g0.1 = key n
      · rw [if_pos hk] at hfg
        rw [← hfg] at hm ⊢
        rcases List.mem_append.mp hm with h1 | h1
        · exact hmem g0 hg0 m h1
        · rw [List.mem_singleton.mp h1, hk]
      · rw [if_neg hk] at hfg
        rw [← hfg] at hm ⊢
        exact hmem g0 hg0 m hm
    · rw [List.pairwise_map]
      have hfst : ∀ g : κ × List NoteT,
          (if g.1 = key n then (g.1, g.2 ++ [n]) else g).1 = g.1 := by
        intro g
        split_ifs <;> rfl
      refine hkeys.imp ?_
      intro g1 g2 hne
      rw [hfst g1, hfst g2]
      exact hne
  · constructor
    · intro g hg m hm
      rcases List.mem_append.mp hg with h1 | h1
      · exact hmem g h1 m hm
      · rw [List.mem_singleton.mp h1] at hm ⊢
        rw [List.mem_singleton.mp hm]
    · rw [List.pairwise_append]
      refine ⟨hkeys, List.pairwise_singleton _ _, ?_⟩
      intro g1 hg1 g2 hg2
      rw [List.mem_singleton.mp hg2]
      intro hh
      apply hany
      rw [List.any_eq_true]
      exact ⟨g1, hg1, by simpa using hh⟩

theorem groupBy_invariant {κ : Type} [DecidableEq κ] (key : NoteT → κ)
    (l : List NoteT) :
    (∀ g ∈ groupBy key l, ∀ m ∈ g.2, key m = g.1) ∧
    List.Pairwise (fun g1 g2 => g1.1 ≠ g2.1) (groupBy key l) := by
  unfold groupBy
  suffices h : ∀ gs : List (κ × List NoteT),
      (∀ g ∈ gs, ∀ m ∈ g.2, key m = g.1) →
      List.Pairwise (fun g1 g2 => g1.1 ≠ g2.1) gs →
      (∀ g ∈ l.foldl (fun gs n => addToGroups gs (key n) n) gs, ∀ m ∈ g.2, key m = g.1) ∧
      List.Pairwise (fun g1 g2 => g1.1 ≠ g2.1)
        (l.foldl (fun gs n => addToGroups gs (key n) n) gs) by
    exact h [] (by simp) List.Pairwise.nil
  induction l with
  | nil => intro gs h1 h2; exact ⟨h1, h2⟩
  | cons n rest ih =>
    intro gs h1 h2
    rw [List.foldl_cons]
    have hstep := addToGroups_preserves key gs n h1 h2
    exact ih _ hstep.1 hstep.2

/-- C10: for every track, after the (enabled) same-pitch overlap resolver's
note pass, no two output notes with the same (channel, pitch) overlap: for
any earlier/later pair with equal key, one ends at or before the other
starts; moreover within each group the kept list is a chain — every kept
note starts at or after the offset of the previously kept one, so the
winner-replacement step never reintroduces an overlap. -/
theorem same_pitch_resolver_output_no_overlap (track : Track) :
    List.Pairwise (fun a b => (a.channel, a.pitch) = (b.channel, b.pitch) →
        a.offset ≤ b.onset ∨ b.offset ≤ a.onset)
      (samePitchResolvedNotes (extractNotePairs track)) ∧
    (∀ group : List NoteT,
      List.Chain' (fun a b => a.offset ≤ b.onset) (resolveGroup group)) := by
  constructor
  · set P : NoteT → NoteT → Prop := fun a b =>
      (a.channel, a.pitch) = (b.channel, b.pitch) →
        a.offset ≤ b.onset ∨ b.offset ≤ a.onset with hP
    have hsymm : ∀ {x y : NoteT}, P x y → P y x := by
      intro x y hxy hkey
      rcases hxy hkey.symm with h | h
      · exact Or.inr h
      · exact Or.inl h
    unfold samePitchResolvedNotes sortNotesOnsetPitch
    rw [(List.perm_insertionSort noteLeOP _).pairwise_iff hsymm]
    have hinv := groupBy_invariant (fun n => (n.channel, n.pitch)) (extractNotePairs track)
    rw [List.flatMap_def, List.pairwise_flatten]
    constructor
    · intro lg hlg
      rcases List.mem_map.mp hlg with ⟨g, _, hfg⟩
      rw [← hfg]
      exact (resolveGroup_pairwise g.2).imp (fun h _ => Or.inl h)
    · rw [List.pairwise_map]
      refine List.Pairwise.imp_of_mem ?_ hinv.2
      intro g1 g2 hg1 hg2 hne x hx y hy hkey
      exfalso
      apply hne
      rw [← hinv.1 g1 hg1 x (resolveGroup_subset _ _ hx),
          ← hinv.1 g2 hg2 y (resolveGroup_subset _ _ hy)]
      exact hkey
  · intro group
    exact (resolveGroup_pairwise group).chain'

/-- Modelled from the claim's wording for C7: the number of note_on /
note_off messages on a given channel (what `Counter` accumulates). -/
def noteChannelCount (track : Track) (c : ℤ) : ℕ :=
  track.countP (fun e =>
    match e.2 with
    | Msg.noteOn ch _ _ => decide (ch = c)
    | Msg.noteOff ch _ _ => decide (ch = c)
    | _ => false)

/-- Modelled from the claim's wording for C7: the number of note_on
messages alone on a given channel. -/
def specNoteOnCount (track : Track) (c : ℤ) : ℕ :=
  track.countP (fun e =>
    match e.2 with
    | Msg.noteOn ch _ _ => decide (ch = c)
    | _ => false)

/-- First (= unique) count recorded for a channel, 0 when absent. -/
def countOf : List (ℤ × ℕ) → ℤ → ℕ
  | [], _ => 0
  | e :: rest, c => if e.1 = c then e.2 else countOf rest c

theorem countOf_map_bump_ne (cs : List (ℤ × ℕ)) (ch c : ℤ) (h : ¬ ch = c) :
    countOf (cs.map (fun e => if e.1 = ch then (e.1, e.2 + 1) else e)) c =
      countOf cs c := by
  induction cs with
  | nil => rfl
  | cons e rest ih =>
    by_cases he : e.1 = ch
    · have hec : ¬ (e.1 = c) := by rw [he]; exact h
      simp [countOf, he, hec, h, ih]
    · by_cases hec : e.1 = c
      · have h' : ¬ (c = ch) := fun hh => h hh.symm
        simp [countOf, he, hec, h']
      · simp [countOf, he, hec, ih]

theorem countOf_map_bump_eq (cs : List (ℤ × ℕ)) (c : ℤ)
    (hany : cs.any (fun e => e.1 = c) = true) :
    countOf (cs.map (fun e => if e.1 = c then (e.1, e.2 + 1) else e)) c =
      countOf cs c + 1 := by
  induction cs with
  | nil => simp at hany
  | cons e rest ih =>
    by_cases he : e.1 = c
    · simp [countOf, he]
    · simp only [List.any_cons, Bool.or_eq_true, decide_eq_true_eq] at hany
      rcases hany with h | h
      · exact absurd h he
      · simp [countOf, he, ih (by simpa using h)]

theorem countOf_zero_of_not_any (cs : List (ℤ × ℕ)) (c : ℤ)
    (h : cs.any (fun e => e.1 = c) = false) : countOf cs c = 0 := by
  induction cs with
  | nil => rfl
  | cons e rest ih =>
    simp only [List.any_cons, Bool.or_eq_false_iff, decide_eq_false_iff_not] at h
    simp [countOf, h.1, ih (by simpa using h.2)]

theorem countOf_append_single_ne (cs : List (ℤ × ℕ)) (ch c : ℤ) (h : ¬ ch = c) :
    countOf (cs ++ [(ch, 1)]) c = countOf cs c := by
  induction cs with
  | nil => simp [countOf, h]
  | cons e rest ih =>
    by_cases hec : e.1 = c
    · simp [countOf, hec]
    · simp [countOf, hec, ih]

theorem countOf_append_single_eq (cs : List (ℤ × ℕ)) (c : ℤ)
    (h : cs.any (fun e => e.1 = c) = false) : countOf (cs ++ [(c, 1)]) c = 1 := by
  induction cs with
  | nil => simp [countOf]
  | cons e rest ih =>
    simp only [List.any_cons, Bool.or_eq_false_iff, decide_eq_false_iff_not] at h
    simp [countOf, h.1, ih (by simpa using h.2)]

theorem countOf_bumpCount (cs : List (ℤ × ℕ)) (ch c : ℤ) :
    countOf (bumpCount cs ch) c =
      if ch = c then countOf cs c + 1 else countOf cs c := by
  unfold bumpCount
  split_ifs with hany hc hc
  · subst hc
    exact countOf_map_bump_eq cs _ hany
  · exact countOf_map_bump_ne cs ch c hc
  · subst hc
    rw [countOf_append_single_eq cs _ (Bool.eq_false_iff.mpr hany),
      countOf_zero_of_not_any cs _ (Bool.eq_false_iff.mpr hany)]
  · exact countOf_append_single_ne cs ch c hc

theorem countOf_channelCountStep (cs : List (ℤ × ℕ)) (e : ℕ × Msg) (c : ℤ) :
    countOf (channelCountStep cs e) c =
      countOf cs c + (if (match e.2 with
        | Msg.noteOn ch _ _ => decide (ch = c)
        | Msg.noteOff ch _ _ => decide (ch = c)
        | _ => false) then 1 else 0) := by
  rcases e with ⟨d, m⟩
  cases m <;> simp only [channelCountStep]
  case noteOn ch p v =>
    rw [countOf_bumpCount]
    by_cases h : ch = c <;> simp [h]
  case noteOff ch p v =>
    rw [countOf_bumpCount]
    by_cases h : ch = c <;> simp [h]
  all_goals simp

theorem countOf_channelCounts_fold (l : Track) :
    ∀ (cs : List (ℤ × ℕ)) (c : ℤ),
      countOf (l.foldl channelCountStep cs) c = countOf cs c + noteChannelCount l c := by
  induction l with
  | nil => intro cs c; simp [noteChannelCount]
  | cons e rest ih =>
    intro cs c
    rw [List.foldl_cons, ih, countOf_channelCountStep]
    unfold noteChannelCount
    rw [List.countP_cons]
    omega

theorem countOf_channelCounts (track : Track) (c : ℤ) :
    countOf (channelCounts track) c = noteChannelCount track c := by
  unfold channelCounts
  rw [countOf_channelCounts_fold]
  simp [countOf]

theorem bumpCount_keys_nodup (cs : List (ℤ × ℕ)) (ch : ℤ)
    (h : (cs.map (fun e => e.1)).Nodup) :
    ((bumpCount cs ch).map (fun e => e.1)).Nodup := by
  unfold bumpCount
  split_ifs with hany
  · have hkeys : (cs.map (fun e => if e.1 = ch then (e.1, e.2 + 1) else e)).map
        (fun e => e.1) = cs.map (fun e => e.1) := by
      rw [List.map_map]
      refine List.map_congr_left ?_
      intro e _
      show (if e.1 = ch then (e.1, e.2 + 1) else e).1 = e.1
      split_ifs <;> rfl
    rw [hkeys]
    exact h
  · rw [List.map_append]
    rw [List.nodup_append]
    refine ⟨h, List.nodup_singleton _, ?_⟩
    intro a ha hb
    rw [List.map_singleton, List.mem_singleton] at hb
    subst hb
    rcases List.mem_map.mp ha with ⟨e, he, hea⟩
    apply absurd hany
    simp only [not_not, List.any_eq_true, decide_eq_true_eq]
    exact ⟨e, he, hea⟩

theorem channelCounts_keys_nodup (track : Track) :
    ((channelCounts track).map (fun e => e.1)).Nodup := by
  unfold channelCounts
  suffices h : ∀ cs : List (ℤ × ℕ), (cs.map (fun e => e.1)).Nodup →
      ((track.foldl channelCountStep cs).map (fun e => e.1)).Nodup by
    exact h [] (by simp)
  induction track with
  | nil => intro cs h; exact h
  | cons e rest ih =>
    intro cs h
    rw [List.foldl_cons]
    refine ih _ ?_
    rcases e with ⟨d, m⟩
    cases m <;> simp only [channelCountStep] <;>
      first | (exact bumpCount_keys_nodup _ _ h) | exact h

theorem countOf_of_mem_nodup (cs : List (ℤ × ℕ)) (e : ℤ × ℕ)
    (hmem : e ∈ cs) (hnd : (cs.map (fun x => x.1)).Nodup) :
    countOf cs e.1 = e.2 := by
  induction cs with
  | nil => simp at hmem
  | cons x rest ih =>
    simp only [List.map_cons, List.nodup_cons] at hnd
    rcases List.mem_cons.mp hmem with h | h
    · subst h
      simp [countOf]
    · have hx : ¬ (x.1 = e.1) := by
        intro hh
        exact hnd.1 (hh ▸ List.mem_map_of_mem (fun y => y.1) h)
      simp [countOf, hx, ih h hnd.2]

theorem countOf_le_of_max (cs : List (ℤ × ℕ)) (c : ℤ) (bound : ℕ)
    (hmax : ∀ e ∈ cs, e.2 ≤ bound) : countOf cs c ≤ bound := by
  induction cs with
  | nil => simp [countOf]
  | cons x rest ih =>
    by_cases hx : x.1 = c
    · simpa [countOf, hx] using hmax x (List.mem_cons_self _ _)
    · simp only [countOf, if_neg hx]
      exact ih (fun e he => hmax e (List.mem_cons.mpr (Or.inr he)))

theorem foldl_best_spec (l : List (ℤ × ℕ)) :
    ∀ e : ℤ × ℕ,
      (l.foldl (fun best x => if best.2 < x.2 then x else best) e) ∈ e :: l ∧
      ∀ x ∈ e :: l, x.2 ≤ (l.foldl (fun best x => if best.2 < x.2 then x else best) e).2 := by
  induction l with
  | nil =>
    intro e
    exact ⟨List.mem_singleton.mpr rfl,
      by intro x hx; rw [List.mem_singleton.mp hx]; exact le_refl _⟩
  | cons y rest ih =>
    intro e
    rw [List.foldl_cons]
    obtain ⟨hmem, hmax⟩ := ih (if e.2 < y.2 then y else e)
    constructor
    · rcases List.mem_cons.mp hmem with h | h
      · rw [h]
        split_ifs
        · exact List.mem_cons.mpr (Or.inr (List.mem_cons_self _ _))
        · exact List.mem_cons_self _ _
      · exact List.mem_cons.mpr (Or.inr (List.mem_cons.mpr (Or.inr h)))
    · intro x hx
      rcases List.mem_cons.mp hx with h | h
      · rw [h]
        refine le_trans ?_ (hmax _ (List.mem_cons_self _ _))
        split_ifs with hlt
        · exact le_of_lt hlt
        · exact le_refl _
      · rcases List.mem_cons.mp h with h1 | h1
        · rw [h1]
          refine le_trans ?_ (hmax _ (List.mem_cons_self _ _))
          split_ifs with hlt
          · exact le_refl _
          · exact le_of_not_lt hlt
        · exact hmax x (List.mem_cons.mpr (Or.inr h1))

theorem channelCountStep_nonNote (cs : List (ℤ × ℕ)) (e : ℕ × Msg)
    (h : e.2.isNote = false) : channelCountStep cs e = cs := by
  rcases e with ⟨d, m⟩
  cases m <;> first | rfl | simp [Msg.isNote] at h

theorem channelCounts_nil_of_no_notes (track : Track)
    (h : ∀ e ∈ track, e.2.isNote = false) : channelCounts track = [] := by
  unfold channelCounts
  induction track with
  | nil => rfl
  | cons e rest ih =>
    rw [List.foldl_cons, channelCountStep_nonNote [] e (h e (List.mem_cons_self _ _))]
    exact ih (fun x hx => h x (List.mem_cons.mpr (Or.inr hx)))

theorem findPrimaryChannel_no_notes (track : Track)
    (h : ∀ e ∈ track, e.2.isNote = false) : findPrimaryChannel track = 0 := by
  unfold findPrimaryChannel mostCommon1
  rw [channelCounts_nil_of_no_notes track h]

theorem findPrimaryChannel_max (track : Track) (c : ℤ) :
    noteChannelCount track c ≤ noteChannelCount track (findPrimaryChannel track) := by
  rcases hcs : channelCounts track with _ | ⟨e, rest⟩
  · have h1 : noteChannelCount track c = 0 := by
      rw [← countOf_channelCounts, hcs]
      rfl
    rw [h1]
    exact Nat.zero_le _
  · have hprim : findPrimaryChannel track =
        (rest.foldl (fun best x => if best.2 < x.2 then x else best) e).1 := by
      unfold findPrimaryChannel mostCommon1
      rw [hcs]
    obtain ⟨hmem, hmax⟩ := foldl_best_spec rest e
    have hnd := channelCounts_keys_nodup track
    rw [hcs] at hnd
    have h2 : noteChannelCount track
        ((rest.foldl (fun best x => if best.2 < x.2 then x else best) e).1) =
        (rest.foldl (fun best x => if best.2 < x.2 then x else best) e).2 := by
      rw [← countOf_channelCounts, hcs]
      exact countOf_of_mem_nodup _ _ hmem hnd
    have h3 : noteChannelCount track c ≤
        (rest.foldl (fun best x => if best.2 < x.2 then x else best) e).2 := by
      rw [← countOf_channelCounts, hcs]
      exact countOf_le_of_max _ _ _ hmax
    rw [hprim, h2]
    exact h3

theorem addToGroups_forall {κ : Type} [DecidableEq κ] (gs : List (κ × List NoteT))
    (k : κ) (n : NoteT) (P : NoteT → Prop)
    (hgs : ∀ g ∈ gs, ∀ m ∈ g.2, P m) (hn : P n) :
    ∀ g ∈ addToGroups gs k n, ∀ m ∈ g.2, P m := by
  unfold addToGroups
  split_ifs with hany
  · intro g hg m hm
    rcases List.mem_map.mp hg with ⟨g0, hg0, hfg⟩
    by_cases hk : g0.1 = k
    · rw [if_pos hk] at hfg
      rw [← hfg] at hm
      rcases List.mem_append.mp hm with h1 | h1
      · exact hgs g0 hg0 m h1
      · rw [List.mem_singleton.mp h1]
        exact hn
    · rw [if_neg hk] at hfg
      rw [← hfg] at hm
      exact hgs g0 hg0 m hm
  · intro g hg m hm
    rcases List.mem_append.mp hg with h1 | h1
    · exact hgs g h1 m hm
    · rw [List.mem_singleton.mp h1] at hm
      rw [List.mem_singleton.mp hm]
      exact hn

theorem groupBy_forall {κ : Type} [DecidableEq κ] (key : NoteT → κ)
    (P : NoteT → Prop) (l : List NoteT) (hl : ∀ n ∈ l, P n) :
    ∀ g ∈ groupBy key l, ∀ m ∈ g.2, P m := by
  unfold groupBy
  suffices h : ∀ gs : List (κ × List NoteT), (∀ g ∈ gs, ∀ m ∈ g.2, P m) →
      (∀ n ∈ l, P n) →
      ∀ g ∈ l.foldl (fun gs n => addToGroups gs (key n) n) gs, ∀ m ∈ g.2, P m by
    exact h [] (by simp) hl
  clear hl
  induction l with
  | nil => intro gs h1 _; exact h1
  | cons n rest ih =>
    intro gs h1 h2
    rw [List.foldl_cons]
    exact ih _ (addToGroups_forall gs (key n) n P h1 (h2 n (List.mem_cons_self _ _)))
      (fun x hx => h2 x (List.mem_cons.mpr (Or.inr hx)))

theorem vmMergeSweep_channel (p : ℤ) :
    ∀ (rest : List NoteT) (current : NoteT) (acc : List NoteT),
      current.channel = p → (∀ x ∈ acc, x.channel = p) →
      (∀ x ∈ rest, x.channel = p) →
      ∀ x ∈ vmMergeSweep current acc rest, x.channel = p := by
  intro rest
  induction rest with
  | nil =>
    intro current acc hc hacc _ x hx
    rw [vmMergeSweep] at hx
    rcases List.mem_append.mp hx with h | h
    · exact hacc x h
    · rw [List.mem_singleton.mp h]
      exact hc
  | cons nxt rest' ih =>
    intro current acc hc hacc hrest x hx
    rw [vmMergeSweep] at hx
    split_ifs at hx with hov
    · refine ih _ acc ?_ hacc (fun y hy => hrest y (List.mem_cons.mpr (Or.inr hy))) x hx
      exact hc
    · refine ih nxt (acc ++ [current]) (hrest nxt (List.mem_cons_self _ _)) ?_
        (fun y hy => hrest y (List.mem_cons.mpr (Or.inr hy))) x hx
      intro y hy
      rcases List.mem_append.mp hy with h | h
      · exact hacc y h
      · rw [List.mem_singleton.mp h]
        exact hc

theorem resolveOverlapsVM_channel (p : ℤ) (l : List NoteT)
    (hl : ∀ n ∈ l, n.channel = p) :
    ∀ x ∈ resolveOverlapsVM l, x.channel = p := by
  intro x hx
  unfold resolveOverlapsVM sortNotesOnsetPitch at hx
  rw [(List.perm_insertionSort noteLeOP _).mem_iff] at hx
  rcases List.mem_flatMap.mp hx with ⟨g, hg, hxg⟩
  have hgmem := groupBy_forall (fun n => (n.channel, n.pitch)) (fun n => n.channel = p) l hl g hg
  have hsortmem : ∀ y ∈ g.2.insertionSort noteLeOnset, y.channel = p := by
    intro y hy
    exact hgmem y ((List.perm_insertionSort noteLeOnset g.2).mem_iff.mp hy)
  rcases hsort : g.2.insertionSort noteLeOnset with _ | ⟨h, t⟩
  · rw [hsort] at hxg
    simp at hxg
  · rw [hsort] at hxg
    refine vmMergeSweep_channel p t h [] ?_ (by simp) ?_ x hxg
    · exact hsortmem h (by rw [hsort]; exact List.mem_cons_self _ _)
    · intro y hy
      exact hsortmem y (by rw [hsort]; exact List.mem_cons.mpr (Or.inr hy))

theorem alignGroup_channel (p : ℤ) (notes : List NoteT)
    (h : ∀ n ∈ notes, n.channel = p) : ∀ x ∈ alignGroup notes, x.channel = p := by
  intro x hx
  simp only [alignGroup] at hx
  split_ifs at hx with h1 h2
  · rcases hmin : (notes.map (fun n => n.offset - n.onset)).min? with _ | shortest <;>
      rw [hmin] at hx
    · exact h x hx
    · rcases List.mem_map.mp hx with ⟨n, hn, hnx⟩
      rw [← hnx]
      exact h n hn
  · exact h x hx
  · exact h x hx

theorem alignChordDurations_channel (p : ℤ) (l : List NoteT)
    (hl : ∀ n ∈ l, n.channel = p) :
    ∀ x ∈ alignChordDurations l, x.channel = p := by
  intro x hx
  unfold alignChordDurations sortNotesOnsetPitch at hx
  rw [(List.perm_insertionSort noteLeOP _).mem_iff] at hx
  rcases List.mem_flatMap.mp hx with ⟨g, hg, hxg⟩
  rw [(List.perm_insertionSort groupLeOnset _).mem_iff] at hg
  have hgmem := groupBy_forall (fun n => n.onset) (fun n => n.channel = p) l hl g hg
  exact alignGroup_channel p g.2 hgmem x hxg

theorem voiceMergerNotePairs_channel (ro : Bool) (p : ℤ) (notes : List NoteT) :
    ∀ n ∈ voiceMergerNotePairs ro p notes, n.channel = p := by
  intro n hn
  unfold voiceMergerNotePairs at hn
  have hreassigned : ∀ x ∈ notes.map (fun n => { n with channel := p }),
      x.channel = p := by
    intro x hx
    rcases List.mem_map.mp hx with ⟨y, _, hyx⟩
    rw [← hyx]
  cases ro with
  | false =>
    simp only [Bool.false_eq_true, if_false] at hn
    exact alignChordDurations_channel p _ hreassigned n hn
  | true =>
    simp only [if_true] at hn
    exact alignChordDurations_channel p _
      (resolveOverlapsVM_channel p _ hreassigned) n hn

/-- A track with three note_on messages on channel 0 (never closed) and two
complete notes on channel 1 (two note_ons plus two note_offs). -/
def exTrack7 : Track :=
  [(0, .noteOn 0 60 80), (0, .noteOn 0 62 80), (0, .noteOn 0 64 80),
   (0, .noteOn 1 60 80), (10, .noteOff 1 60 0),
   (0, .noteOn 1 62 80), (10, .noteOff 1 62 0), (0, .endOfTrack)]

/-- C7 counterexample: channel 0 carries the most note-on events (3 > 2),
but `_find_primary_channel` counts note_off messages too (channel 0: 3,
channel 1: 4) and picks channel 1, contradicting the claim. -/
theorem find_primary_channel_counts_note_offs :
    findPrimaryChannel exTrack7 = 1 ∧
    specNoteOnCount exTrack7 0 = 3 ∧
    specNoteOnCount exTrack7 1 = 2 ∧
    (1 : ℤ) ≠ 0 := by
  refine ⟨?_, ?_, ?_, ?_⟩ <;> decide

/-- C7 (amended): the voice merger's primary channel is a channel with the
maximal number of note_on AND note_off messages combined (channel 0 when
the track has no note messages at all), and every note that the merger's
note pass emits carries that channel. -/
theorem voice_merger_primary_and_reassignment (track : Track) (ro : Bool) :
    ((∀ e ∈ track, e.2.isNote = false) → findPrimaryChannel track = 0) ∧
    (∀ c : ℤ, noteChannelCount track c ≤
      noteChannelCount track (findPrimaryChannel track)) ∧
    (∀ n ∈ voiceMergerNotePairs ro (findPrimaryChannel track)
        (extractNotePairs track),
      n.channel = findPrimaryChannel track) :=
  ⟨findPrimaryChannel_no_notes track,
   findPrimaryChannel_max track,
   voiceMergerNotePairs_channel ro (findPrimaryChannel track) (extractNotePairs track)⟩

/-- C7 witness: a note-free track maps to channel 0; on `exTrack7` the
primary channel's note-message count dominates channel 0's, and the merged
note pass puts every note on the primary channel. -/
theorem voice_merger_primary_witness :
    findPrimaryChannel [((0 : ℕ), Msg.endOfTrack)] = 0 ∧
    noteChannelCount exTrack7 0 ≤
      noteChannelCount exTrack7 (findPrimaryChannel exTrack7) ∧
    (∀ n ∈ voiceMergerNotePairs true (findPrimaryChannel exTrack7)
        (extractNotePairs exTrack7),
      n.channel = findPrimaryChannel exTrack7) :=
  ⟨(voice_merger_primary_and_reassignment [((0 : ℕ), Msg.endOfTrack)] true).1 (by decide),
   (voice_merger_primary_and_reassignment exTrack7 true).2.1 0,
   (voice_merger_primary_and_reassignment exTrack7 true).2.2⟩

/-- A one-track file with three notes of pitch 60 on channel 0, durations
30, 480 and 480 ticks, no overlaps. -/
def exFile2 : MFile :=
  ⟨1, 480,
   [[(0, .noteOn 0 60 80), (30, .noteOff 0 60 0),
     (70, .noteOn 0 60 80), (480, .noteOff 0 60 0),
     (120, .noteOn 0 60 80), (480, .noteOff 0 60 0),
     (0, .endOfTrack)]]⟩

/-- C2 counterexample: `score_midi` returns `round(score, 4)`, not the raw
formula value: on `exFile2` the formula gives −143/48 = −2.97916…, while
the function returns −2.9792 = −1862/625. -/
theorem score_midi_rounds_to_4_decimals :
    (scoreMidi exFile2).1 = -1862/625 ∧
    specScoreFormula exFile2 = -143/48 ∧
    ¬ (scoreMidi exFile2).1 = specScoreFormula exFile2 := by
  refine ⟨?_, ?_, ?_⟩ <;> decide

/-- C2 (amended): with no note pairs `score_midi` returns exactly 0.0 with
all-zero metrics; otherwise it returns the claimed formula value rounded
to 4 decimal places (Python's `round(score, 4)`). -/
theorem score_midi_formula (file : MFile) :
    (file.tracks.flatMap extractNotePairs = [] →
      scoreMidi file = (0, ⟨0, 0, 0, 0, 0⟩)) ∧
    (file.tracks.flatMap extractNotePairs ≠ [] →
      (scoreMidi file).1 = roundTo (specScoreFormula file) 4) := by
  constructor
  · intro h
    simp only [scoreMidi, if_pos h]
  · intro h
    simp only [scoreMidi, if_neg h]
    congr 1
    simp only [specScoreFormula, List.card_toFinset, List.countP_map,
      List.length_map, Function.comp]
    rfl

/-- C2 witness: the empty branch on a file whose only track holds just an
`end_of_track`, and the formula branch on `exFile2`. -/
theorem score_midi_formula_witness :
    scoreMidi ⟨1, 480, [[(0, Msg.endOfTrack)]]⟩ = (0, ⟨0, 0, 0, 0, 0⟩) ∧
    (scoreMidi exFile2).1 = roundTo (specScoreFormula exFile2) 4 :=
  ⟨(score_midi_formula ⟨1, 480, [[(0, Msg.endOfTrack)]]⟩).1 (by decide),
   (score_midi_formula exFile2).2 (by decide)⟩
